import Mathlib

/-!
Verification of the faculty-google-scholar scripts.

The Python sources (find_scholar_ids.py, update_citations.py,
extract_faculty_data.py) are shallowly embedded below: strings are lists of
characters, the CSV file is a character list, the clock, the web-search
library, the profile scraper and standard input are explicit parameters.
Character classes of Python regexes (`\w`, `\s`) and `str.lower` are modelled
on their ASCII fragment.
-/

set_option autoImplicit false

namespace FacultyScholar

/-- ASCII whitespace recognised by Python's `str.split()`, `str.strip()` and
the regex class `\s`. -/
def isPySpace (c : Char) : Bool :=
  c = ' ' || c = '\t' || c = '\n' || c.toNat = 11 || c.toNat = 12 || c = '\r'

/-- ASCII fragment of the regex word-character class `\w`. -/
def isWordChar (c : Char) : Bool :=
  c.isAlphanum || c = '_'

/-- Python `str.lower`, ASCII fragment. -/
def pyLower (c : Char) : Char := c.toLower

/-- Python `str.strip()` on a character list. -/
def stripPy (s : List Char) : List Char :=
  ((s.dropWhile isPySpace).reverse.dropWhile isPySpace).reverse

/-- Helper for `pySplitWS`; `acc` is the current word, reversed. -/
def pySplitWSAux : List Char → List Char → List (List Char)
  | [], acc => if acc.isEmpty then [] else [acc.reverse]
  | c :: cs, acc =>
    if isPySpace c then
      if acc.isEmpty then pySplitWSAux cs []
      else acc.reverse :: pySplitWSAux cs []
    else pySplitWSAux cs (c :: acc)

/-- Python `str.split()` (no argument): split on whitespace runs, dropping
empty parts. -/
def pySplitWS (s : List Char) : List (List Char) := pySplitWSAux s []

/-- Python `' '.join parts`. -/
def joinSpace : List (List Char) → List Char
  | [] => []
  | [w] => w
  | w :: ws => w ++ ' ' :: joinSpace ws

/-- Regex word boundary `\b` between an optional previous character and an
optional next character. -/
def wordBoundary (l r : Option Char) : Bool :=
  (match l with | some c => isWordChar c | none => false) !=
  (match r with | some c => isWordChar c | none => false)

/-- Case-insensitive literal match: if `lit` (given in lowercase) matches the
head of `cs` modulo ASCII case, return the remainder. -/
def dropLitCI : List Char → List Char → Option (List Char)
  | [], cs => some cs
  | _ :: _, [] => none
  | l :: ls, c :: cs => if pyLower c = l then dropLitCI ls cs else none

/-- One regex alternative `lit` with optional trailing dot (the `Jr\.?` style),
including the pattern's closing `\b`; greedy, so the dotted form is tried
first.  Returns the last matched character and the remainder. -/
def tryAltOptDot (lit : List Char) (lastc : Char) (cs : List Char) :
    Option (Char × List Char) :=
  match dropLitCI (lit ++ ['.']) cs with
  | some rest =>
    if wordBoundary (some '.') rest.head? then some ('.', rest)
    else
      match dropLitCI lit cs with
      | some rest2 =>
        if wordBoundary (some lastc) rest2.head? then some (lastc, rest2) else none
      | none => none
  | none =>
    match dropLitCI lit cs with
    | some rest2 =>
      if wordBoundary (some lastc) rest2.head? then some (lastc, rest2) else none
    | none => none

/-- One regex alternative with no optional part (`III`, `PhD`, `Ph\.D\.`),
including the pattern's closing `\b`. -/
def tryAltExact (lit : List Char) (lastc : Char) (cs : List Char) :
    Option (Char × List Char) :=
  match dropLitCI lit cs with
  | some rest =>
    if wordBoundary (some lastc) rest.head? then some (lastc, rest) else none
  | none => none

/-- The alternation `Jr\.?|Sr\.?|III|II|IV|PhD|Ph\.D\.|Dr\.?|Prof\.?` of
`normalize_name` (find_scholar_ids.py line 143), tried in source order. -/
def trySuffixAlts (cs : List Char) : Option (Char × List Char) :=
  (tryAltOptDot ['j', 'r'] 'r' cs).orElse fun _ =>
  (tryAltOptDot ['s', 'r'] 'r' cs).orElse fun _ =>
  (tryAltExact ['i', 'i', 'i'] 'i' cs).orElse fun _ =>
  (tryAltExact ['i', 'i'] 'i' cs).orElse fun _ =>
  (tryAltExact ['i', 'v'] 'v' cs).orElse fun _ =>
  (tryAltExact ['p', 'h', 'd'] 'd' cs).orElse fun _ =>
  (tryAltExact ['p', 'h', '.', 'd', '.'] '.' cs).orElse fun _ =>
  (tryAltOptDot ['d', 'r'] 'r' cs).orElse fun _ =>
  tryAltOptDot ['p', 'r', 'o', 'f'] 'f' cs

/-- `re.sub` for the honorific/suffix pattern of `normalize_name`: scan left to
right; wherever a word boundary holds, try the alternatives in order and delete
the match (continuing after it, remembering its last character for the next
boundary test).  `fuel` merely bounds the recursion; every step consumes at
least one character, so `length + 1` fuel always completes the scan. -/
def removeSuffixesAux : Nat → Option Char → List Char → List Char
  | 0, _, cs => cs
  | _ + 1, _, [] => []
  | fuel + 1, pre, c :: cs =>
    match (if wordBoundary pre (some c) then trySuffixAlts (c :: cs) else none) with
    | some (lastc, rest) => removeSuffixesAux fuel (some lastc) rest
    | none => c :: removeSuffixesAux fuel (some c) cs

/-- The suffix/honorific deletion pass of `normalize_name`. -/
def removeSuffixes (s : List Char) : List Char :=
  removeSuffixesAux (s.length + 1) none s

/-- `normalize_name` from find_scholar_ids.py (lines 132-148): delete
honorifics/suffixes, keep only word characters, whitespace, apostrophe and
hyphen, collapse whitespace, lowercase and strip. -/
def normalize_name (name : List Char) : List Char :=
  let s1 := removeSuffixes name
  let s2 := s1.filter (fun c => isWordChar c || isPySpace c || c.toNat = 39 || c = '-')
  let s3 := joinSpace (pySplitWS s2)
  stripPy (s3.map pyLower)

end FacultyScholar

namespace FacultyScholar

/-- All positions of `c` in `b`, ascending: difflib's `b2j` occurrence table. -/
def b2j (b : List Char) (c : Char) : List Nat :=
  (List.range b.length).filter (fun j => b.get? j = some c)

/-- Lookup in the `j2len` table of `find_longest_match` (`j2len.get(j-1, 0)`). -/
def lookupD (l : List (Nat × Nat)) (k : Nat) : Nat :=
  match l.find? (fun p => p.1 == k) with
  | some p => p.2
  | none => 0

/-- Inner loop of difflib's `find_longest_match` (the loop over
`b2j.get(a[i], [])`): `j2len` is the table from the previous row, `acc` the
table being built for this row, `best = (besti, bestj, bestsize)`.  A position
below `blo` is skipped, one at or above `bhi` stops the loop. -/
def flmInner (i blo bhi : Nat) (j2len : List (Nat × Nat)) :
    List Nat → List (Nat × Nat) → Nat × Nat × Nat →
      List (Nat × Nat) × (Nat × Nat × Nat)
  | [], acc, best => (acc, best)
  | j :: js, acc, best =>
    if j < blo then flmInner i blo bhi j2len js acc best
    else if bhi ≤ j then (acc, best)
    else
      let k := (if j = 0 then 0 else lookupD j2len (j - 1)) + 1
      let best2 := if best.2.2 < k then (i + 1 - k, j + 1 - k, k) else best
      flmInner i blo bhi j2len js ((j, k) :: acc) best2

/-- Outer loop of `find_longest_match` over the `a`-window positions. -/
def flmOuter (a b : List Char) (blo bhi : Nat) :
    List Nat → List (Nat × Nat) → Nat × Nat × Nat → Nat × Nat × Nat
  | [], _, best => best
  | i :: is, j2len, best =>
    let js := match a.get? i with
      | some c => b2j b c
      | none => []
    let st := flmInner i blo bhi j2len js [] best
    flmOuter a b blo bhi is st.1 st.2

/-- Left extension loop of `find_longest_match` (junk-free, so the two junk
extension loops of difflib never fire and are omitted).  The loop decrements
`besti` while `alo < besti`, so `besti` as initial fuel runs it to its real
exit condition. -/
def extLeftF (a b : List Char) (alo blo : Nat) :
    Nat → Nat → Nat → Nat → Nat × Nat × Nat
  | 0, besti, bestj, bestsize => (besti, bestj, bestsize)
  | fuel + 1, besti, bestj, bestsize =>
    if alo < besti ∧ blo < bestj ∧ (a.get? (besti - 1)).isSome ∧
        a.get? (besti - 1) = b.get? (bestj - 1) then
      extLeftF a b alo blo fuel (besti - 1) (bestj - 1) (bestsize + 1)
    else (besti, bestj, bestsize)

/-- Right extension loop of `find_longest_match`; returns the extended size.
The loop increments `bestsize` while `besti + bestsize < ahi`, so `ahi` as
initial fuel runs it to its real exit condition. -/
def extRightSizeF (a b : List Char) (ahi bhi besti bestj : Nat) :
    Nat → Nat → Nat
  | 0, bestsize => bestsize
  | fuel + 1, bestsize =>
    if besti + bestsize < ahi ∧ bestj + bestsize < bhi ∧
        (a.get? (besti + bestsize)).isSome ∧
        a.get? (besti + bestsize) = b.get? (bestj + bestsize) then
      extRightSizeF a b ahi bhi besti bestj fuel (bestsize + 1)
    else bestsize

/-- difflib's `SequenceMatcher.find_longest_match` on the window
`a[alo:ahi], b[blo:bhi]`, with no junk (the autojunk heuristic, which only
alters behaviour when `b` has 200 or more characters, is not modelled). -/
def findLongestMatch (a b : List Char) (alo ahi blo bhi : Nat) : Nat × Nat × Nat :=
  let best := flmOuter a b blo bhi (List.range' alo (ahi - alo)) [] (alo, blo, 0)
  let bl := extLeftF a b alo blo best.1 best.1 best.2.1 best.2.2
  (bl.1, bl.2.1, extRightSizeF a b ahi bhi bl.1 bl.2.1 ahi bl.2.2)

/-- The recursion of `get_matching_blocks`, summed: total matched characters in
the window.  difflib runs it with an explicit queue; the sum of block sizes is
the same run as a tree fold.  `fuel` bounds the depth and is always sufficient
at `la + lb + 1` because the window shrinks at every recursive call. -/
def matchesSumF (a b : List Char) : Nat → Nat → Nat → Nat → Nat → Nat
  | 0, _, _, _, _ => 0
  | fuel + 1, alo, ahi, blo, bhi =>
    let m := findLongestMatch a b alo ahi blo bhi
    if m.2.2 = 0 then 0
    else
      m.2.2 +
        (if alo < m.1 ∧ blo < m.2.1 then matchesSumF a b fuel alo m.1 blo m.2.1 else 0) +
        (if m.1 + m.2.2 < ahi ∧ m.2.1 + m.2.2 < bhi then
          matchesSumF a b fuel (m.1 + m.2.2) ahi (m.2.1 + m.2.2) bhi else 0)

/-- The `matches` quantity of `SequenceMatcher.ratio()`. -/
def smMatches (a b : List Char) : Nat :=
  matchesSumF a b (a.length + b.length + 1) 0 a.length 0 b.length

/-- `SequenceMatcher(None, a, b).ratio() ≥ 0.8`, i.e. `2*M/(la+lb) ≥ 4/5`,
compared exactly (difflib defines the ratio of two empty strings as 1.0, and
the inequality below also holds then). -/
def ratioGe08 (a b : List Char) : Bool :=
  2 * (a.length + b.length) ≤ 5 * smMatches a b

/-- The middle-token loop of `names_match` (find_scholar_ids.py lines
204-211): some middle token of one name equals, or is a one-letter initial
of, a middle token of the other. -/
def middleOverlap (sm rm : List (List Char)) : Bool :=
  sm.any fun s => rm.any fun r =>
    s == r || (s.length == 1 && s.head? == r.head?) ||
      (r.length == 1 && r.head? == s.head?)

/-- `names_match` from find_scholar_ids.py (lines 151-213).  The `threshold`
parameter is kept (as an exact rational standing for the Python float); the
source never reads it. -/
def names_match (search_name result_name : List Char) (threshold : ℚ) : Bool :=
  let search_norm := normalize_name search_name
  let result_norm := normalize_name result_name
  if search_norm = result_norm then true
  else
    let search_parts := pySplitWS search_norm
    let result_parts := pySplitWS result_norm
    if search_parts.length < 2 ∨ result_parts.length < 2 then false
    else if search_parts.getLast? ≠ result_parts.getLast? then false
    else
      let search_first := (search_parts.head?).getD []
      let result_first := (result_parts.head?).getD []
      let firstOk : Bool :=
        if search_first.length = 1 ∨ result_first.length = 1 then
          search_first.head? == result_first.head?
        else
          ratioGe08 search_first result_first
      if firstOk = false then false
      else if 2 < search_parts.length ∨ 2 < result_parts.length then
        let sm := (search_parts.drop 1).dropLast
        let rm := (result_parts.drop 1).dropLast
        if sm ≠ [] ∧ rm ≠ [] then middleOverlap sm rm
        else true
      else true

end FacultyScholar

namespace FacultyScholar

/-! ### Claim C2's reading of the matcher, as a predicate -/

/-- First-token equivalence as claim C2 words it: the tokens are equal, or one
is a one-character initial agreeing with the other token's leading character,
or their SequenceMatcher similarity is at least 0.8. -/
def FirstTokenEquiv (sf rf : List Char) : Prop :=
  sf = rf ∨ (sf.length = 1 ∧ sf.head? = rf.head?) ∨
    (rf.length = 1 ∧ rf.head? = sf.head?) ∨ ratioGe08 sf rf = true

/-- Middle-token compatibility as claim C2 words it: some middle token of one
name equals, or is a one-letter initial of, a middle token of the other. -/
def MiddleTokensOverlap (sm rm : List (List Char)) : Prop :=
  ∃ s ∈ sm, ∃ r ∈ rm,
    s = r ∨ (s.length = 1 ∧ s.head? = r.head?) ∨ (r.length = 1 ∧ r.head? = s.head?)

/-- Claim C2's description of `names_match`: the normalized forms are equal;
or both normalized names have at least two tokens, the last tokens are
identical, the first tokens are equivalent, and, whenever both names carry
middle tokens, at least one middle token of one name equals or is an initial
of a middle token of the other. -/
def NamesMatchSpec (a b : List Char) : Prop :=
  normalize_name a = normalize_name b ∨
    (2 ≤ (pySplitWS (normalize_name a)).length ∧
     2 ≤ (pySplitWS (normalize_name b)).length ∧
     (pySplitWS (normalize_name a)).getLast? = (pySplitWS (normalize_name b)).getLast? ∧
     FirstTokenEquiv (((pySplitWS (normalize_name a)).head?).getD [])
       (((pySplitWS (normalize_name b)).head?).getD []) ∧
     (((pySplitWS (normalize_name a)).drop 1).dropLast ≠ [] →
      ((pySplitWS (normalize_name b)).drop 1).dropLast ≠ [] →
      MiddleTokensOverlap ((pySplitWS (normalize_name a)).drop 1).dropLast
        ((pySplitWS (normalize_name b)).drop 1).dropLast))

/-! ### Abbreviations for reasoning about the inner loop -/

/-- The run length `k` computed by the inner loop at column `j` (it reads only
the previous row `j2len`). -/
def kOf (j2len : List (Nat × Nat)) (j : Nat) : Nat :=
  (if j = 0 then 0 else lookupD j2len (j - 1)) + 1

/-- The new-row entry written by the inner loop at column `j`. -/
def rowEntry (j2len : List (Nat × Nat)) (j : Nat) : Nat × Nat :=
  (j, kOf j2len j)

/-- The `best`-triple update of the inner loop at column `j`. -/
def bestStep (i : Nat) (j2len : List (Nat × Nat)) (bs : Nat × Nat × Nat)
    (j : Nat) : Nat × Nat × Nat :=
  if bs.2.2 < kOf j2len j then (i + 1 - kOf j2len j, j + 1 - kOf j2len j, kOf j2len j)
  else bs

/-! ### update_citations.py: dates and the update loop -/

/-- Numeric value of an ASCII digit. -/
def digitVal (c : Char) : Nat := c.toNat - 48

/-- Length of a month in the proleptic Gregorian calendar. -/
def daysInMonth (y m : Nat) : Nat :=
  if m = 2 then (if (y % 4 = 0 ∧ y % 100 ≠ 0) ∨ y % 400 = 0 then 29 else 28)
  else if m = 4 ∨ m = 6 ∨ m = 9 ∨ m = 11 then 30
  else 31

/-- Four mandatory digits: the `%Y` pattern of `_strptime`. -/
def parse4Digits : List Char → Option (Nat × List Char)
  | a :: b :: c :: d :: rest =>
    if a.isDigit ∧ b.isDigit ∧ c.isDigit ∧ d.isDigit then
      some (digitVal a * 1000 + digitVal b * 100 + digitVal c * 10 + digitVal d, rest)
    else none
  | _ => none

/-- The `%d` pattern `3[01]|[12]\d|0[1-9]|[1-9]`: first matching alternative
(nothing follows it in the format, so no backtracking re-enters it). -/
def parseDay : List Char → Option (Nat × List Char)
  | [] => none
  | [a] => if a.isDigit ∧ a ≠ '0' then some (digitVal a, []) else none
  | a :: b :: rest =>
    if a = '3' ∧ (b = '0' ∨ b = '1') then some (30 + digitVal b, rest)
    else if (a = '1' ∨ a = '2') ∧ b.isDigit then some (digitVal a * 10 + digitVal b, rest)
    else if a = '0' ∧ b.isDigit ∧ b ≠ '0' then some (digitVal b, rest)
    else if a.isDigit ∧ a ≠ '0' then some (digitVal a, b :: rest)
    else none

/-- The `%m-%d` tail: month pattern `1[0-2]|0[1-9]|[1-9]`, with the regex
backtracking from the following literal `-` into the one-digit month
alternative when the two-digit one leaves no `-` to consume. -/
def parseMonthDay (cs : List Char) : Option (Nat × Nat × List Char) :=
  let cont : Nat → List Char → Option (Nat × Nat × List Char) := fun m tail =>
    match tail with
    | '-' :: rest2 =>
      match parseDay rest2 with
      | some (d, rest3) => some (m, d, rest3)
      | none => none
    | _ => none
  let oneDigit : Option (Nat × Nat × List Char) :=
    match cs with
    | a :: rest => if a.isDigit ∧ a ≠ '0' then cont (digitVal a) rest else none
    | [] => none
  match cs with
  | a :: b :: rest =>
    if a = '1' ∧ (b = '0' ∨ b = '1' ∨ b = '2') then
      match cont (10 + digitVal b) rest with
      | some out => some out
      | none => oneDigit
    else if a = '0' ∧ b.isDigit ∧ b ≠ '0' then
      match cont (digitVal b) rest with
      | some out => some out
      | none => oneDigit
    else oneDigit
  | _ => oneDigit

/-- `datetime.strptime(s, "%Y-%m-%d")`, `some (y, m, d)` on success: the
format regex with backtracking, `_strptime`'s whole-string length check, and
`datetime`'s range validation (year at least MINYEAR 1, day fitting the
month). -/
def strptimeYMD (s : List Char) : Option (Nat × Nat × Nat) :=
  match parse4Digits s with
  | none => none
  | some (y, rest) =>
    match rest with
    | '-' :: rest2 =>
      match parseMonthDay rest2 with
      | none => none
      | some (m, d, rest3) =>
        if rest3 = [] ∧ 1 ≤ y ∧ d ≤ daysInMonth y m then some (y, m, d)
        else none
    | _ => none

/-- Days in the years before year `y`: `date(y,1,1).toordinal() - 1`. -/
def daysBeforeYear (y : Nat) : Nat :=
  365 * (y - 1) + (y - 1) / 4 - (y - 1) / 100 + (y - 1) / 400

/-- Days before month `m` in year `y`. -/
def daysBeforeMonth (y m : Nat) : Nat :=
  (List.range (m - 1)).foldl (fun acc i => acc + daysInMonth y (i + 1)) 0

/-- `datetime.date(y, m, d).toordinal()`. -/
def dateOrdinal (y m d : Nat) : Int :=
  ((daysBeforeYear y + daysBeforeMonth y m + d : Nat) : Int)

/-- `needs_update` from update_citations.py (lines 85-107).  `nowOrd` is the
ordinal of `datetime.now()`'s calendar date; the stored date parses to
midnight, so `(now - last_update).days` is exactly the ordinal difference. -/
def needs_update (nowOrd : Int) (as_of_date : List Char)
    (update_delay_days : Int) : Bool :=
  if as_of_date.isEmpty ∨ (stripPy as_of_date).isEmpty then true
  else
    match strptimeYMD (stripPy as_of_date) with
    | none => true
    | some (y, m, d) => update_delay_days ≤ nowOrd - dateOrdinal y m d

end FacultyScholar

namespace FacultyScholar

/-! ### The CSV file: csv.DictWriter / csv.DictReader -/

/-- A faculty record: the five CSV fields, all strings. -/
structure Faculty where
  name : List Char
  scholar_id : List Char
  citations : List Char
  h_index : List Char
  as_of_date : List Char
deriving DecidableEq

/-- The fixed field order `['name', 'scholar_id', 'citations', 'h_index',
'as_of_date']` used by both scripts' savers. -/
def facultyFields (f : Faculty) : List (List Char) :=
  [f.name, f.scholar_id, f.citations, f.h_index, f.as_of_date]

/-- The header row values. -/
def csvHeaderFields : List (List Char) :=
  ["name".data, "scholar_id".data, "citations".data, "h_index".data,
    "as_of_date".data]

/-- QUOTE_MINIMAL: a field is quoted when it contains the delimiter, the quote
character or a line-terminator character. -/
def csvNeedsQuote (f : List Char) : Bool :=
  f.any fun c => c = ',' || c = '"' || c = '\r' || c = '\n'

/-- Double every quote character (the writer's escaping inside quotes). -/
def csvEscape : List Char → List Char
  | [] => []
  | c :: cs => if c = '"' then '"' :: '"' :: csvEscape cs else c :: csvEscape cs

/-- One field as written by `csv.writer`. -/
def csvField (f : List Char) : List Char :=
  if csvNeedsQuote f then '"' :: (csvEscape f ++ ['"']) else f

/-- Join with the `,` delimiter. -/
def joinComma : List (List Char) → List Char
  | [] => []
  | [w] => w
  | w :: ws => w ++ ',' :: joinComma ws

/-- One row as written by `csv.writer` (default line terminator CRLF). -/
def csvRow (fields : List (List Char)) : List Char :=
  joinComma (fields.map csvField) ++ ['\r', '\n']

/-- `save_faculty_data` (find_scholar_ids.py lines 57-72, update_citations.py
lines 37-52): the full CSV file content written for `data` (header row then
one row per record, in the fixed field order). -/
def save_faculty_data (data : List Faculty) : List Char :=
  csvRow csvHeaderFields ++ (data.map fun f => csvRow (facultyFields f)).flatten

/-- Raw (unquoted) field text: up to a delimiter or line end. -/
def csvRawField : List Char → List Char × List Char
  | [] => ([], [])
  | c :: cs =>
    if c = ',' ∨ c = '\r' ∨ c = '\n' then ([], c :: cs)
    else
      let r := csvRawField cs
      (c :: r.1, r.2)

/-- Inside a quoted field: consume to the closing quote, undoing doubled
quotes. -/
def csvQuoted : List Char → List Char × List Char
  | [] => ([], [])
  | '"' :: '"' :: cs => let r := csvQuoted cs; ('"' :: r.1, r.2)
  | '"' :: cs => ([], cs)
  | c :: cs => let r := csvQuoted cs; (c :: r.1, r.2)

/-- One field as read by `csv.reader`: quoted or raw; any text after a closing
quote (never produced by the writer) is appended, as the non-strict reader
does. -/
def csvParseField (cs : List Char) : List Char × List Char :=
  match cs with
  | '"' :: rest =>
    let q := csvQuoted rest
    let r := csvRawField q.2
    (q.1 ++ r.1, r.2)
  | _ => csvRawField cs

/-- Fields of one row; the fuel (at least the remaining length) only bounds
the recursion, each comma consuming one character. -/
def csvParseRowAux : Nat → List Char → List (List Char) × List Char
  | 0, cs => ([], cs)
  | fuel + 1, cs =>
    let f := csvParseField cs
    match f.2 with
    | ',' :: rest =>
      let r := csvParseRowAux fuel rest
      (f.1 :: r.1, r.2)
    | '\r' :: '\n' :: rest => ([f.1], rest)
    | '\r' :: rest => ([f.1], rest)
    | '\n' :: rest => ([f.1], rest)
    | _ => ([f.1], [])

/-- One row as read by `csv.reader`: an entirely empty line yields the empty
row `[]`. -/
def csvParseRow (cs : List Char) : List (List Char) × List Char :=
  match cs with
  | '\r' :: '\n' :: rest => ([], rest)
  | '\r' :: rest => ([], rest)
  | '\n' :: rest => ([], rest)
  | [] => ([], [])
  | _ => csvParseRowAux (cs.length + 1) cs

/-- All rows of the file; each row consumes at least one character, so
`length + 1` fuel always reaches the end. -/
def csvParseRowsF : Nat → List Char → List (List (List Char))
  | 0, _ => []
  | fuel + 1, cs =>
    if cs.isEmpty then []
    else
      let r := csvParseRow cs
      r.1 :: csvParseRowsF fuel r.2

/-- `csv.reader` over the whole file content. -/
def csvParseRows (cs : List Char) : List (List (List Char)) :=
  csvParseRowsF (cs.length + 1) cs

/-- Python's universal-newline translation: `open(path, 'r')` without
`newline=''` rewrites every CRLF and every lone CR in the stream to LF before
the csv reader sees it (also inside quoted fields). -/
def universalNewlines : List Char → List Char
  | [] => []
  | '\r' :: '\n' :: cs => '\n' :: universalNewlines cs
  | '\r' :: cs => '\n' :: universalNewlines cs
  | c :: cs => c :: universalNewlines cs

/-- What a saved row looks like after universal-newline translation: the CRLF
terminator has become a single LF. -/
def csvRowLF (fields : List (List Char)) : List Char :=
  joinComma (fields.map csvField) ++ ['\n']

/-- `load_faculty_data` (find_scholar_ids.py lines 42-54): `csv.DictReader`
over the file content.  The source opens the file with
`open(csv_path, 'r', encoding='utf-8')` — without `newline=''` — so the
stream goes through universal-newline translation first.  DictReader takes
the first row as the field names and skips blank rows.  The records are
returned as `some` when the header is the expected five names and every row
carries exactly five values; otherwise the row dictionaries would not have
the five-string shape of `Faculty`, modelled as `none`. -/
def load_faculty_data (cs : List Char) : Option (List Faculty) :=
  match csvParseRows (universalNewlines cs) with
  | [] => some []
  | header :: rows =>
    if header = csvHeaderFields then
      let rows2 := rows.filter (fun r => ¬ r.isEmpty)
      if rows2.all (fun r => r.length = 5) then
        some (rows2.map fun r =>
          { name := r.getD 0 [], scholar_id := r.getD 1 [],
            citations := r.getD 2 [], h_index := r.getD 3 [],
            as_of_date := r.getD 4 [] })
      else none
    else none

/-! ### update_citations.py: the update loop -/

/-- What `get_scholar_metrics` extracts from a profile on success. -/
structure Metrics where
  citations : Nat
  h_index : Nat

/-- One record's step of `update_citations` (update_citations.py lines
158-205).  `fetch` is `get_scholar_metrics` (update_citations.py lines 55-82):
`none` is its caught-exception path.  Returns the (possibly updated) record
and the increments of (updated, skipped-no-id, skipped-recent, errors). -/
def updateStep (fetch : List Char → Option Metrics) (nowOrd : Int)
    (todayStr : List Char) (update_delay_days : Int) (f : Faculty) :
    Faculty × (Nat × Nat × Nat × Nat) :=
  if (stripPy f.scholar_id).isEmpty then (f, (0, 1, 0, 0))
  else if needs_update nowOrd f.as_of_date update_delay_days = false then
    (f, (0, 0, 1, 0))
  else
    match fetch (stripPy f.scholar_id) with
    | some m =>
      ({ f with citations := (Nat.repr m.citations).data,
                h_index := (Nat.repr m.h_index).data,
                as_of_date := todayStr }, (1, 0, 0, 0))
    | none => (f, (0, 0, 0, 1))

/-- `update_citations` (update_citations.py lines 133-215): every record is
processed in order; the result is the updated record list and the four
counters (updated, skipped-no-id, skipped-recent, errors).  Printing, the
countdown sleeps and the per-update incremental saves are not modelled; the
returned list is exactly what the final save writes. -/
def update_citations (fetch : List Char → Option Metrics) (nowOrd : Int)
    (todayStr : List Char) (update_delay_days : Int) :
    List Faculty → List Faculty × (Nat × Nat × Nat × Nat)
  | [] => ([], (0, 0, 0, 0))
  | f :: rest =>
    let s := updateStep fetch nowOrd todayStr update_delay_days f
    let r := update_citations fetch nowOrd todayStr update_delay_days rest
    (s.1 :: r.1,
      (s.2.1 + r.2.1, s.2.2.1 + r.2.2.1, s.2.2.2.1 + r.2.2.2.1,
        s.2.2.2.2 + r.2.2.2.2))

end FacultyScholar

namespace FacultyScholar

/-! ### find_scholar_ids.py: the discovery flow -/

/-- A verified search result (the dictionaries built by
`verify_profile_match` / `search_scholar_direct`): the fields the control
flow reads. -/
structure SResult where
  scholar_id : List Char
  name : List Char
  url : List Char
deriving DecidableEq

/-- The group `([^&]+)` after a literal `user=`: at least one non-`&`
character, captured greedily. -/
def userCapture (cs : List Char) : Option (List Char) :=
  if ['u', 's', 'e', 'r', '='].isPrefixOf cs ∧ cs.drop 5 ≠ [] ∧
      (cs.drop 5).head? ≠ some '&' then
    some ((cs.drop 5).takeWhile (fun c => c ≠ '&'))
  else none

/-- `extract_scholar_id` (find_scholar_ids.py lines 75-89): `re.search` for
`[?&]user=([^&]+)` — the earliest `?`/`&` followed by `user=` and a non-empty
run of non-`&` characters; the capture is that run. -/
def extract_scholar_id : List Char → Option (List Char)
  | [] => none
  | c :: cs =>
    if c = '?' ∨ c = '&' then
      match userCapture cs with
      | some s => some s
      | none => extract_scholar_id cs
    else extract_scholar_id cs

/-- `manual_id_entry` (find_scholar_ids.py lines 383-427): the prompt loop,
driven by the list of standard-input lines.  Returns the accepted id (the
stripped response, accepted when longer than 5 characters, containing no
space, and confirmed with `y`) and the remaining input lines.  Exhausting the
input is modelled as returning no id. -/
def manual_id_entry : List (List Char) → Option (List Char) × List (List Char)
  | [] => (none, [])
  | resp0 :: rest =>
    let r := stripPy resp0
    if r.map pyLower = "skip".data then (none, rest)
    else if r.map pyLower = "none".data then (none, rest)
    else if r ≠ [] then
      if 5 < r.length ∧ ¬ (' ' ∈ r) then
        match rest with
        | [] => (none, [])
        | conf :: rest2 =>
          if (stripPy conf).map pyLower = ['y'] then (some r, rest2)
          else manual_id_entry rest2
      else manual_id_entry rest
    else manual_id_entry rest

/-- `verify_profile_match` (find_scholar_ids.py lines 216-256): fetch the
profile's display name through the `profileName` oracle
(`get_name_from_profile`) and accept on exact normalized equality (quality
`exact`) or on `names_match` at its default threshold (quality `good`). -/
def verify_profile_match (profileName : List Char → Option (List Char))
    (search_name url scholar_id : List Char) : Option SResult :=
  match profileName url with
  | none => none
  | some pn =>
    if normalize_name search_name = normalize_name pn then
      some { scholar_id := scholar_id, name := pn, url := url }
    else if names_match search_name pn (85 / 100) then
      some { scholar_id := scholar_id, name := pn, url := url }
    else none

/-- The verification loop of `search_web_for_scholar` (find_scholar_ids.py
lines 289-307): walk the result URLs; extract an id, skip empty or seen ids,
verify the profile name, record accepted ids in `seen`, stop at 5 verified
results. -/
def swsLoop (profileName : List Char → Option (List Char)) (name : List Char) :
    List (List Char) → List (List Char) → List SResult → List SResult
  | [], _, acc => acc
  | url :: rest, seen, acc =>
    match extract_scholar_id url with
    | none => swsLoop profileName name rest seen acc
    | some sid =>
      if sid = [] ∨ sid ∈ seen then swsLoop profileName name rest seen acc
      else
        match verify_profile_match profileName name url sid with
        | none => swsLoop profileName name rest seen acc
        | some v =>
          let acc2 := acc ++ [v]
          if 5 ≤ acc2.length then acc2
          else swsLoop profileName name rest (sid :: seen) acc2

/-- `search_web_for_scholar` (find_scholar_ids.py lines 259-322): the
DuckDuckGo hrefs returned for the query are the `ddgs` oracle (the code asks
for at most `max_results * 3 = 15` of them). -/
def search_web_for_scholar (profileName : List Char → Option (List Char))
    (ddgs : List (List Char)) (name : List Char) : List SResult :=
  swsLoop profileName name (ddgs.take 15) [] []

/-- Pop one line of standard input; exhausted input is modelled as an empty
response line. -/
def popInput : List (List Char) → List Char × List (List Char)
  | [] => ([], [])
  | x :: xs => (x, xs)

/-- Python `str.isdigit` over the stripped, lowered response (ASCII). -/
def isDigits (s : List Char) : Bool :=
  ¬ s.isEmpty && s.all Char.isDigit

/-- Numeric value of a digit string (`int(response)`). -/
def natOfDigits (s : List Char) : Nat :=
  s.foldl (fun n c => n * 10 + digitVal c) 0

/-- The single-result interactive branch (find_scholar_ids.py lines 490-567):
one prompt; empty/`y` accepts when the 0.95-threshold `names_match` holds,
`y` accepts otherwise, `skip` skips, anything else goes to manual entry.
Returns the id to store (or none for a skip) and the remaining input. -/
def singleInteractive (name : List Char) (res : SResult)
    (inputs : List (List Char)) : Option (List Char) × List (List Char) :=
  let p := popInput inputs
  let resp := (stripPy p.1).map pyLower
  if names_match name res.name (95 / 100) then
    if resp.isEmpty ∨ resp = ['y'] then (some res.scholar_id, p.2)
    else if resp = "skip".data then (none, p.2)
    else manual_id_entry p.2
  else
    if resp = ['y'] then (some res.scholar_id, p.2)
    else if resp = "skip".data then (none, p.2)
    else manual_id_entry p.2

/-- The multiple-result selection loop (find_scholar_ids.py lines 584-623):
consume input lines until a valid choice.  Returns the chosen id (if any),
whether the skip is recorded in the ambiguous report (`n`/`skip` are, a failed
manual entry is not), and the remaining input.  Exhausted input is modelled as
a recorded skip. -/
def multiSelect (results : List SResult) :
    List (List Char) → Option (List Char) × Bool × List (List Char)
  | [] => (none, true, [])
  | resp0 :: rest =>
    let r := (stripPy resp0).map pyLower
    if r = ['n'] then (none, true, rest)
    else if r = "skip".data then (none, true, rest)
    else if r = "manual".data then
      let m := manual_id_entry rest
      (m.1, false, m.2)
    else if isDigits r then
      let choice := natOfDigits r
      if 1 ≤ choice ∧ choice ≤ results.length then
        (some ((results.getD (choice - 1)
          { scholar_id := [], name := [], url := [] }).scholar_id), false, rest)
      else multiSelect results rest
    else multiSelect results rest

/-- The evolving state of `find_missing_ids`: the last written file content
(if any incremental save happened), the two counters, the `still_missing`
names and the `ambiguous_results` report entries `(name, [(url, name), ...])`. -/
structure FMIState where
  file : Option (List Char)
  updated : Nat
  skipped : Nat
  still_missing : List (List Char)
  ambiguous : List ((List Char) × List ((List Char) × (List Char)))
deriving DecidableEq

/-- What `find_missing_ids` produces: its Python return value `ret` (the list
when the ambiguous report is non-empty, `None` otherwise), the final in-memory
record list, the final state, and the unconsumed input. -/
structure FMIOut where
  ret : Option (List Faculty)
  data : List Faculty
  st : FMIState
  inputRest : List (List Char)
deriving DecidableEq

/-- The record loop of `find_missing_ids` (find_scholar_ids.py lines 451-657).
`done` holds already-processed records; an incremental save writes the whole
current list `done ++ current ++ todo`.  `webSearch` is
`search_web_for_scholar` applied to its oracles, `direct` is
`search_scholar_direct`, and the two availability flags mirror
`DDGS_AVAILABLE` / `SCHOLARLY_AVAILABLE`. -/
def fmiLoop (webSearch direct : List Char → List SResult)
    (ddgsAvail scholarlyAvail interactive use_automated : Bool) :
    List Faculty → List Faculty → List (List Char) → FMIState →
      List Faculty × List (List Char) × FMIState
  | done, [], inputs, st => (done, inputs, st)
  | done, f :: todo, inputs, st =>
    if ¬ (stripPy f.scholar_id).isEmpty then
      fmiLoop webSearch direct ddgsAvail scholarlyAvail interactive
        use_automated (done ++ [f]) todo inputs st
    else
      let name := f.name
      let results :=
        if use_automated then
          let r1 := if ddgsAvail then webSearch name else []
          if r1.isEmpty ∧ scholarlyAvail then direct name else r1
        else []
      let next := fun (f2 : Faculty) (inputs2 : List (List Char))
          (st2 : FMIState) =>
        fmiLoop webSearch direct ddgsAvail scholarlyAvail interactive
          use_automated (done ++ [f2]) todo inputs2 st2
      let accept := fun (sid : List Char) (inputs2 : List (List Char)) =>
        let f2 := { f with scholar_id := sid }
        next f2 inputs2
          { st with updated := st.updated + 1,
                    file := some (save_faculty_data (done ++ f2 :: todo)) }
      let skip := fun (inputs2 : List (List Char)) =>
        next f inputs2
          { st with skipped := st.skipped + 1,
                    still_missing := st.still_missing ++ [name] }
      let skipAmb := fun (inputs2 : List (List Char)) =>
        next f inputs2
          { st with skipped := st.skipped + 1,
                    still_missing := st.still_missing ++ [name],
                    ambiguous := st.ambiguous ++
                      [(name, results.map fun r => (r.url, r.name))] }
      if h1 : results.length = 1 ∧ interactive then
        let res := results.getD 0 { scholar_id := [], name := [], url := [] }
        let out := singleInteractive name res inputs
        match out.1 with
        | some sid => accept sid out.2
        | none => skip out.2
      else if h2 : 1 < results.length then
        if interactive then
          let out := multiSelect results inputs
          match out.1 with
          | some sid => accept sid out.2.2
          | none => if out.2.1 then skipAmb out.2.2 else skip out.2.2
        else skipAmb inputs
      else if h3 : results.length = 1 then
        accept ((results.getD 0
          { scholar_id := [], name := [], url := [] }).scholar_id) inputs
      else if interactive then
        let m := manual_id_entry inputs
        match m.1 with
        | some sid => accept sid m.2
        | none => skip m.2
      else skip inputs

/-- `find_missing_ids` (find_scholar_ids.py lines 430-685).  After the loop the
function returns `data` from inside `if ambiguous_results:` and otherwise
falls off its end, returning `None`. -/
def find_missing_ids (webSearch direct : List Char → List SResult)
    (ddgsAvail scholarlyAvail : Bool) (data : List Faculty)
    (inputs : List (List Char)) (interactive use_automated : Bool) : FMIOut :=
  let out := fmiLoop webSearch direct ddgsAvail scholarlyAvail interactive
    use_automated [] data inputs
    { file := none, updated := 0, skipped := 0, still_missing := [],
      ambiguous := [] }
  { ret := if out.2.2.ambiguous.isEmpty then none else some out.1,
    data := out.1, st := out.2.2, inputRest := out.2.1 }

end FacultyScholar

namespace FacultyScholar

set_option maxRecDepth 40000

/-! ## Theorems -/

/-- C7: `normalize_name` strips the `Jr.` suffix, so `"John Smith Jr."` and
`"John Smith"` have identical normalized forms. -/
theorem normalize_name_strips_jr :
    normalize_name "John Smith Jr.".data = normalize_name "John Smith".data := by
  decide

/-- C6: at the default threshold 0.85, `names_match` accepts
`("J. Smith", "John Smith")` and rejects `("John Smith", "Jane Smith")`. -/
theorem names_match_initial_accepts_first_name_rejects :
    names_match "J. Smith".data "John Smith".data (85 / 100) = true ∧
    names_match "John Smith".data "Jane Smith".data (85 / 100) = false := by
  exact ⟨by decide, by decide⟩

/-- C10: the `threshold` parameter of `names_match` is never read, so any two
threshold values produce identical results on every pair of names. -/
theorem names_match_threshold_irrelevant (a b : List Char) (t1 t2 : ℚ) :
    names_match a b t1 = names_match a b t2 := rfl

/-- C3: for every staleness window, `needs_update` returns `True` on an
empty/whitespace-only `as_of_date` and on one that does not parse as a
`YYYY-MM-DD` date. -/
theorem needs_update_empty_or_invalid (nowOrd update_delay_days : Int)
    (s : List Char)
    (h : stripPy s = [] ∨ strptimeYMD (stripPy s) = none) :
    needs_update nowOrd s update_delay_days = true := by
  rcases h with h | h
  · simp [needs_update, h]
  · by_cases he : s.isEmpty ∨ (stripPy s).isEmpty
    · simp only [needs_update, if_pos he]
    · simp only [needs_update, if_neg he, h]

/-- Witness for C3: a whitespace-only date and a non-`YYYY-MM-DD` date both
report "needs update" at a concrete clock value and window. -/
theorem needs_update_empty_or_invalid_witness :
    needs_update 739535 "  ".data 7 = true ∧
    needs_update 739535 "2025/01/01".data 7 = true :=
  ⟨needs_update_empty_or_invalid 739535 7 "  ".data (Or.inl (by decide)),
   needs_update_empty_or_invalid 739535 7 "2025/01/01".data (Or.inr (by decide))⟩

end FacultyScholar

namespace FacultyScholar

/-- The record list produced by `update_citations` is the independent
per-record step mapped over the input: every record is processed, in order. -/
theorem update_citations_fst_eq_map (fetch : List Char → Option Metrics)
    (nowOrd : Int) (todayStr : List Char) (update_delay_days : Int)
    (data : List Faculty) :
    (update_citations fetch nowOrd todayStr update_delay_days data).1 =
      data.map fun g => (updateStep fetch nowOrd todayStr update_delay_days g).1 := by
  induction data with
  | nil => rfl
  | cons f rest ih => simp [update_citations, ih]

/-- The error counter of `update_citations` is the sum of the per-record
error increments. -/
theorem update_citations_err_eq_sum (fetch : List Char → Option Metrics)
    (nowOrd : Int) (todayStr : List Char) (update_delay_days : Int)
    (data : List Faculty) :
    (update_citations fetch nowOrd todayStr update_delay_days data).2.2.2.2 =
      (data.map fun g =>
        (updateStep fetch nowOrd todayStr update_delay_days g).2.2.2.2).sum := by
  induction data with
  | nil => rfl
  | cons f rest ih => simp [update_citations, ih]

/-- A record whose metric fetch fails is left untouched and counts one error. -/
theorem updateStep_fetch_none (fetch : List Char → Option Metrics)
    (nowOrd : Int) (todayStr : List Char) (update_delay_days : Int)
    (f : Faculty)
    (hid : (stripPy f.scholar_id).isEmpty = false)
    (hnu : needs_update nowOrd f.as_of_date update_delay_days = true)
    (hfetch : fetch (stripPy f.scholar_id) = none) :
    updateStep fetch nowOrd todayStr update_delay_days f = (f, (0, 0, 0, 1)) := by
  simp [updateStep, hid, hnu, hfetch]

/-- C5: in `update_citations`, when metric retrieval fails for a record that
reaches the fetch (non-empty `scholar_id`, stale `as_of_date`), the failure is
caught as a counted error: that record is returned with every field unchanged,
every record (in particular each later one) is still processed by its own
independent step, and the error count is the sum of the per-record error
flags, with this record contributing exactly 1. -/
theorem update_citations_failure_isolated (fetch : List Char → Option Metrics)
    (nowOrd : Int) (todayStr : List Char) (update_delay_days : Int)
    (data : List Faculty) (i : Nat) (f : Faculty)
    (hf : data.get? i = some f)
    (hid : (stripPy f.scholar_id).isEmpty = false)
    (hnu : needs_update nowOrd f.as_of_date update_delay_days = true)
    (hfetch : fetch (stripPy f.scholar_id) = none) :
    (update_citations fetch nowOrd todayStr update_delay_days data).1.get? i =
      some f ∧
    (update_citations fetch nowOrd todayStr update_delay_days data).1 =
      (data.map fun g =>
        (updateStep fetch nowOrd todayStr update_delay_days g).1) ∧
    (update_citations fetch nowOrd todayStr update_delay_days data).2.2.2.2 =
      (data.map fun g =>
        (updateStep fetch nowOrd todayStr update_delay_days g).2.2.2.2).sum ∧
    (updateStep fetch nowOrd todayStr update_delay_days f).2.2.2.2 = 1 ∧
    1 ≤ (update_citations fetch nowOrd todayStr update_delay_days data).2.2.2.2 := by
  have hstep := updateStep_fetch_none fetch nowOrd todayStr update_delay_days f
    hid hnu hfetch
  have hmap := update_citations_fst_eq_map fetch nowOrd todayStr
    update_delay_days data
  have herr := update_citations_err_eq_sum fetch nowOrd todayStr
    update_delay_days data
  refine ⟨?_, hmap, herr, by rw [hstep], ?_⟩
  · rw [hmap, List.get?_map, hf]
    simp only [Option.map_some']
    rw [hstep]
  · rw [herr]
    have hmem : f ∈ data := List.get?_mem hf
    have : (updateStep fetch nowOrd todayStr update_delay_days f).2.2.2.2 ∈
        data.map fun g =>
          (updateStep fetch nowOrd todayStr update_delay_days g).2.2.2.2 :=
      List.mem_map_of_mem _ hmem
    rw [hstep] at this
    exact List.single_le_sum (fun _ _ => Nat.zero_le _) _ this

/-- Witness for C5: a one-record run whose fetch oracle always fails leaves
the record unchanged and reports one error. -/
theorem update_citations_failure_isolated_witness :
    (update_citations (fun _ => none) 739535 "2025-10-12".data 7
        [⟨"A B".data, "X123456".data, "5".data, "1".data, [] ⟩]).1.get? 0 =
      some ⟨"A B".data, "X123456".data, "5".data, "1".data, [] ⟩ ∧
    1 ≤ (update_citations (fun _ => none) 739535 "2025-10-12".data 7
        [⟨"A B".data, "X123456".data, "5".data, "1".data, [] ⟩]).2.2.2.2 := by
  have h := update_citations_failure_isolated (fun _ => none) 739535
    "2025-10-12".data 7
    [⟨"A B".data, "X123456".data, "5".data, "1".data, [] ⟩] 0
    ⟨"A B".data, "X123456".data, "5".data, "1".data, [] ⟩
    (by decide) (by decide) (by decide) rfl
  exact ⟨h.1, h.2.2.2.2⟩

end FacultyScholar

namespace FacultyScholar

/-- C9: `find_missing_ids` returns the record list exactly when the ambiguous
report is non-empty; with no ambiguous outcome the `return data` inside
`if ambiguous_results:` is never reached and the function returns `None`. -/
theorem find_missing_ids_ret_iff_ambiguous
    (webSearch direct : List Char → List SResult) (da sa : Bool)
    (data : List Faculty) (inputs : List (List Char)) (inter autom : Bool) :
    (find_missing_ids webSearch direct da sa data inputs inter autom).ret =
      (if (find_missing_ids webSearch direct da sa data inputs
            inter autom).st.ambiguous = []
       then none
       else
         some (find_missing_ids webSearch direct da sa data inputs
            inter autom).data) := by
  by_cases h : (fmiLoop webSearch direct da sa inter autom [] data inputs
      { file := none, updated := 0, skipped := 0, still_missing := [],
        ambiguous := [] }).2.2.ambiguous = []
  · simp [find_missing_ids, h]
  · simp [find_missing_ids, h, List.isEmpty_iff]

/-- C1: on a two-record list with exactly one record missing its
`scholar_id`, a run of `find_missing_ids` with `interactive = False` whose
automated search yields exactly one result for the missing record auto-accepts
it: that record's `scholar_id` becomes the result's id, the other record is
untouched, and the incremental save leaves the CSV content rewritten with
exactly the updated list. -/
theorem find_missing_ids_auto_accept_two_records
    (webSearch direct : List Char → List SResult) (sa : Bool)
    (d1 d2 : Faculty) (res : SResult) (inputs : List (List Char))
    (hone : (stripPy d1.scholar_id = [] ∧ stripPy d2.scholar_id ≠ []) ∨
            (stripPy d1.scholar_id ≠ [] ∧ stripPy d2.scholar_id = []))
    (hsearch : webSearch
      (if stripPy d1.scholar_id = [] then d1.name else d2.name) = [res]) :
    (find_missing_ids webSearch direct true sa [d1, d2] inputs
        false true).data =
      [(if stripPy d1.scholar_id = [] then { d1 with scholar_id := res.scholar_id }
        else d1),
       (if stripPy d2.scholar_id = [] then { d2 with scholar_id := res.scholar_id }
        else d2)] ∧
    (find_missing_ids webSearch direct true sa [d1, d2] inputs
        false true).st.file =
      some (save_faculty_data
        [(if stripPy d1.scholar_id = [] then { d1 with scholar_id := res.scholar_id }
          else d1),
         (if stripPy d2.scholar_id = [] then { d2 with scholar_id := res.scholar_id }
          else d2)]) := by
  rcases hone with ⟨h1, h2⟩ | ⟨h1, h2⟩
  · rw [if_pos h1] at hsearch
    simp [find_missing_ids, fmiLoop, h1, h2, hsearch, List.isEmpty_iff]
  · rw [if_neg h1] at hsearch
    simp [find_missing_ids, fmiLoop, h1, h2, hsearch, List.isEmpty_iff]

/-- Witness for C1: a concrete two-record run (second record missing its id,
stub search returning one exact-name match) populates the second record and
rewrites the CSV with the new value. -/
theorem find_missing_ids_auto_accept_two_records_witness :
    (find_missing_ids
        (fun n => if n = "Bob Smith".data then
          [⟨"BBB222".data, "Bob Smith".data,
            "https://scholar.google.com/citations?user=BBB222".data⟩] else [])
        (fun _ => []) true false
        [⟨"Alice Jones".data, "AAA111".data, "10".data, "2".data,
          "2025-01-01".data⟩,
         ⟨"Bob Smith".data, [], [], [], [] ⟩] [] false true).data =
      [⟨"Alice Jones".data, "AAA111".data, "10".data, "2".data,
         "2025-01-01".data⟩,
       ⟨"Bob Smith".data, "BBB222".data, [], [], [] ⟩] ∧
    (find_missing_ids
        (fun n => if n = "Bob Smith".data then
          [⟨"BBB222".data, "Bob Smith".data,
            "https://scholar.google.com/citations?user=BBB222".data⟩] else [])
        (fun _ => []) true false
        [⟨"Alice Jones".data, "AAA111".data, "10".data, "2".data,
          "2025-01-01".data⟩,
         ⟨"Bob Smith".data, [], [], [], [] ⟩] [] false true).st.file =
      some (save_faculty_data
        [⟨"Alice Jones".data, "AAA111".data, "10".data, "2".data,
           "2025-01-01".data⟩,
         ⟨"Bob Smith".data, "BBB222".data, [], [], [] ⟩]) := by
  have h := find_missing_ids_auto_accept_two_records
    (fun n => if n = "Bob Smith".data then
      [⟨"BBB222".data, "Bob Smith".data,
        "https://scholar.google.com/citations?user=BBB222".data⟩] else [])
    (fun _ => []) false
    ⟨"Alice Jones".data, "AAA111".data, "10".data, "2".data,
      "2025-01-01".data⟩
    ⟨"Bob Smith".data, [], [], [], [] ⟩
    ⟨"BBB222".data, "Bob Smith".data,
      "https://scholar.google.com/citations?user=BBB222".data⟩
    [] (Or.inr ⟨by decide, by decide⟩) (by decide)
  exact ⟨by rw [h.1]; decide, by rw [h.2]; decide⟩

end FacultyScholar

namespace FacultyScholar

/-- Counterexample to C8: `extract_scholar_id` captures `[^&]+`, which admits
whitespace, and the discovery flow stores the captured value verbatim.  With a
search-result URL whose `user=` value is `a b` (and a profile whose name
matches exactly), the non-interactive run stores the scholar_id `"a b"`: a
non-empty value with embedded whitespace. -/
theorem find_missing_ids_stores_whitespace_id :
    extract_scholar_id
        "https://scholar.google.com/citations?user=a b".data = some "a b".data ∧
    ((find_missing_ids
        (fun n => search_web_for_scholar
          (fun url =>
            if url = "https://scholar.google.com/citations?user=a b".data
            then some "Bob Smith".data else none)
          ["https://scholar.google.com/citations?user=a b".data] n)
        (fun _ => []) true false
        [⟨"Bob Smith".data, [], [], [], [] ⟩] [] false true).data.getD 0
          ⟨[], [], [], [], [] ⟩).scholar_id = "a b".data ∧
    ' ' ∈ "a b".data ∧ "a b".data ≠ [] := by
  refine ⟨by decide, by decide, by decide, by decide⟩

end FacultyScholar

namespace FacultyScholar

/-- Ids captured by `extract_scholar_id` are non-empty and free of `&`. -/
theorem extract_scholar_id_shape :
    ∀ (url : List Char) (s : List Char),
      extract_scholar_id url = some s → s ≠ [] ∧ '&' ∉ s := by
  intro url
  induction url with
  | nil => intro s h; cases h
  | cons c cs ih =>
    intro s h
    simp only [extract_scholar_id] at h
    by_cases hc : c = '?' ∨ c = '&'
    · rw [if_pos hc] at h
      cases hu : userCapture cs with
      | none => rw [hu] at h; exact ih s h
      | some t =>
        rw [hu] at h
        cases h
        unfold userCapture at hu
        by_cases hcond : (['u', 's', 'e', 'r', '='].isPrefixOf cs ∧
            cs.drop 5 ≠ [] ∧ (cs.drop 5).head? ≠ some '&')
        · rw [if_pos hcond] at hu
          cases hu
          obtain ⟨-, hne, hhd⟩ := hcond
          obtain ⟨x, xs, hx⟩ := List.exists_cons_of_ne_nil hne
          rw [hx] at hhd ⊢
          have hxamp : x ≠ '&' := by
            intro he; exact hhd (by rw [he]; rfl)
          constructor
          · simp [List.takeWhile, hxamp]
          · intro hmem
            have := List.mem_takeWhile_imp hmem
            simp at this
        · rw [if_neg hcond] at hu; cases hu
    · rw [if_neg hc] at h; exact ih s h

/-- One-step bound form of `manual_id_entry_shape`, by strong induction on
the number of remaining input lines. -/
theorem manual_id_entry_shape_bounded :
    ∀ (n : Nat) (inputs : List (List Char)), inputs.length ≤ n →
      ∀ (s : List Char) (rest : List (List Char)),
        manual_id_entry inputs = (some s, rest) →
          5 < s.length ∧ ' ' ∉ s ∧ s ≠ [] := by
  intro n
  induction n with
  | zero =>
    intro inputs hlen s rest h
    have : inputs = [] := List.length_eq_zero.mp (Nat.le_zero.mp hlen)
    subst this
    simp [manual_id_entry] at h
  | succ n ih =>
    intro inputs hlen s rest h
    cases inputs with
    | nil => simp [manual_id_entry] at h
    | cons resp0 rest0 =>
      rw [manual_id_entry.eq_def] at h
      simp only [] at h
      have hlen0 : rest0.length ≤ n := by
        simp only [List.length_cons] at hlen
        omega
      by_cases c1 : (stripPy resp0).map pyLower = "skip".data
      · rw [if_pos c1] at h; simp at h
      · rw [if_neg c1] at h
        by_cases c2 : (stripPy resp0).map pyLower = "none".data
        · rw [if_pos c2] at h; simp at h
        · rw [if_neg c2] at h
          by_cases c3 : stripPy resp0 ≠ []
          · rw [if_pos c3] at h
            by_cases c4 : 5 < (stripPy resp0).length ∧ ¬ (' ' ∈ stripPy resp0)
            · rw [if_pos c4] at h
              cases rest0 with
              | nil => simp at h
              | cons conf rest2 =>
                have h2 : (if (stripPy conf).map pyLower = ['y'] then
                    ((some (stripPy resp0), rest2) :
                      Option (List Char) × List (List Char))
                  else manual_id_entry rest2) = (some s, rest) := h
                by_cases c5 : (stripPy conf).map pyLower = ['y']
                · rw [if_pos c5] at h2
                  obtain ⟨h1, -⟩ := Prod.mk.injEq .. ▸ h2
                  cases h1
                  exact ⟨c4.1, c4.2, c3⟩
                · rw [if_neg c5] at h2
                  exact ih rest2 (by simp only [List.length_cons] at hlen0; omega)
                    s rest h2
            · rw [if_neg c4] at h
              exact ih rest0 hlen0 s rest h
          · rw [if_neg c3] at h
            exact ih rest0 hlen0 s rest h

/-- Ids accepted by `manual_id_entry` are non-empty, longer than five
characters, and contain no space character. -/
theorem manual_id_entry_shape :
    ∀ (inputs : List (List Char)) (s : List Char) (rest : List (List Char)),
      manual_id_entry inputs = (some s, rest) →
        5 < s.length ∧ ' ' ∉ s ∧ s ≠ [] := fun inputs =>
  manual_id_entry_shape_bounded inputs.length inputs (Nat.le_refl _)

end FacultyScholar

namespace FacultyScholar

/-- C8 (amended): every scholar_id the discovery script obtains from a
search-result URL via `extract_scholar_id` is non-empty and contains no
ampersand, and every scholar_id accepted via manual entry is non-empty,
longer than five characters, and contains no space character. -/
theorem stored_id_source_shapes :
    (∀ (url s : List Char),
      extract_scholar_id url = some s → s ≠ [] ∧ '&' ∉ s) ∧
    (∀ (inputs : List (List Char)) (s : List Char) (rest : List (List Char)),
      manual_id_entry inputs = (some s, rest) →
        5 < s.length ∧ ' ' ∉ s ∧ s ≠ []) :=
  ⟨extract_scholar_id_shape, manual_id_entry_shape⟩

/-- Witness for the amended C8: a concrete URL capture and a concrete manual
entry, with the guaranteed shapes. -/
theorem stored_id_source_shapes_witness :
    ("ABC123".data ≠ [] ∧ '&' ∉ "ABC123".data) ∧
    (5 < "XYZ9876".data.length ∧ ' ' ∉ "XYZ9876".data ∧ "XYZ9876".data ≠ []) :=
  ⟨stored_id_source_shapes.1 "https://x?user=ABC123".data "ABC123".data
      (by decide),
   stored_id_source_shapes.2 ["XYZ9876".data, "y".data] "XYZ9876".data []
      (by decide)⟩

end FacultyScholar

namespace FacultyScholar

/-- A raw-field scan stops immediately on a delimiter, a line end, or the end
of input. -/
theorem csvRawField_stop (cs : List Char)
    (h : cs.head? = some ',' ∨ cs.head? = some '\r' ∨ cs.head? = some '\n' ∨
      cs = []) :
    csvRawField cs = ([], cs) := by
  cases cs with
  | nil => rfl
  | cons c cs' =>
    have hc : c = ',' ∨ c = '\r' ∨ c = '\n' := by
      rcases h with h | h | h | h <;> simp_all
    simp [csvRawField, hc]

/-- A raw-field scan over a quote-free, delimiter-free, line-end-free field
consumes exactly the field. -/
theorem csvRawField_safe (f rest : List Char) (hf : csvNeedsQuote f = false)
    (hrest : rest.head? = some ',' ∨ rest.head? = some '\r' ∨
      rest.head? = some '\n') :
    csvRawField (f ++ rest) = (f, rest) := by
  induction f with
  | nil =>
    simpa using csvRawField_stop rest (by tauto)
  | cons c f' ih =>
    simp only [csvNeedsQuote, List.any_cons, Bool.or_eq_false_iff] at hf
    have hc : ¬ (c = ',' ∨ c = '\r' ∨ c = '\n') := by
      rcases hf with ⟨hc, -⟩
      simp only [Bool.or_eq_false_iff, decide_eq_false_iff_not] at hc
      tauto
    have ih2 := ih (by
      simp only [csvNeedsQuote]
      rcases hf with ⟨-, htl⟩
      exact htl)
    simp [csvRawField, hc, ih2]

/-- The quoted-field scan undoes the writer's quote doubling and stops at the
closing quote. -/
theorem csvQuoted_esc (f rest : List Char) (h : rest.head? ≠ some '"') :
    csvQuoted (csvEscape f ++ '"' :: rest) = (f, rest) := by
  induction f with
  | nil =>
    cases rest with
    | nil => rfl
    | cons r rs =>
      have hr : r ≠ '"' := by simp_all
      simp [csvEscape, csvQuoted, hr]
  | cons c f' ih =>
    by_cases hc : c = '"'
    · subst hc
      simp [csvEscape, csvQuoted, ih]
    · simp [csvEscape, csvQuoted, hc, ih]

/-- Reading back one encoded field, when followed by a delimiter or a line
end, recovers the field. -/
theorem csvParseField_enc (f rest : List Char)
    (hrest : rest.head? = some ',' ∨ rest.head? = some '\r' ∨
      rest.head? = some '\n') :
    csvParseField (csvField f ++ rest) = (f, rest) := by
  by_cases hq : csvNeedsQuote f
  · have hstop : rest.head? ≠ some '"' := by
      rcases hrest with h | h | h <;> simp [h]
    have hqu := csvQuoted_esc f rest hstop
    have hraw := csvRawField_stop rest (by tauto)
    simp only [csvField, if_pos hq]
    have : ('"' :: (csvEscape f ++ ['"'])) ++ rest =
        '"' :: (csvEscape f ++ '"' :: rest) := by simp
    rw [this]
    simp [csvParseField, hqu, hraw]
  · have hraw := csvRawField_safe f rest (by simpa using hq) hrest
    simp only [csvField, if_neg hq]
    cases hf : f ++ rest with
    | nil =>
      have h0 : rest = [] := (List.append_eq_nil.mp hf).2
      rcases hrest with h | h | h <;> rw [h0] at h <;> cases h
    | cons x xs =>
      have hx : x ≠ '"' := by
        cases f with
        | nil =>
          rw [List.nil_append] at hf
          rcases hrest with h | h | h <;> rw [hf] at h <;> simp_all
        | cons c f' =>
          simp only [List.cons_append, List.cons.injEq] at hf
          have hcq : ¬ c = '"' := by
            intro hc
            apply hq
            simp [csvNeedsQuote, hc]
          rw [← hf.1]
          exact hcq
      rw [hf] at hraw
      simp [csvParseField, hx, hraw]

/-- A joined row is at least one character shorter than its field count. -/
theorem joinComma_length_lb : ∀ (l : List (List Char)),
    l.length ≤ (joinComma l).length + 1 := by
  intro l
  induction l with
  | nil => simp [joinComma]
  | cons w ws ih =>
    cases ws with
    | nil => simp [joinComma]
    | cons w2 ws2 =>
      rw [show joinComma (w :: w2 :: ws2) =
        w ++ ',' :: joinComma (w2 :: ws2) from rfl]
      simp only [List.length_cons, List.length_append] at ih ⊢
      omega

/-- Reading back a translated row (at least 2 fields, enough fuel): the
fields come back exactly, leaving the remainder after the LF. -/
theorem csvParseRowAux_enc (fields : List (List Char)) :
    ∀ (fuel : Nat) (rest : List Char), fields ≠ [] → fields.length ≤ fuel →
      csvParseRowAux fuel
        (joinComma (fields.map csvField) ++ '\n' :: rest) =
        (fields, rest) := by
  induction fields with
  | nil => intro fuel rest h; exact absurd rfl h
  | cons f fs ih =>
    intro fuel rest _ hlen
    cases fuel with
    | zero => simp at hlen
    | succ m =>
      cases fs with
      | nil =>
        have he := csvParseField_enc f ('\n' :: rest) (Or.inr (Or.inr rfl))
        simp only [List.map_cons, List.map_nil, joinComma]
        simp [csvParseRowAux, he]
      | cons f2 fs2 =>
        have hjc : joinComma ((f :: f2 :: fs2).map csvField) ++
            '\n' :: rest =
            csvField f ++ (',' ::
              (joinComma ((f2 :: fs2).map csvField) ++ '\n' :: rest)) := by
          rw [show joinComma ((f :: f2 :: fs2).map csvField) =
            csvField f ++ ',' :: joinComma ((f2 :: fs2).map csvField) from rfl]
          simp
        rw [hjc]
        have he := csvParseField_enc f
          (',' :: (joinComma ((f2 :: fs2).map csvField) ++ '\n' :: rest))
          (Or.inl rfl)
        have ihm := ih m rest (by simp) (by simp at hlen ⊢; omega)
        simp only [List.map_cons] at he ihm
        simp [csvParseRowAux, he, ihm]

/-- The first character of an encoded field is never a line-end character. -/
theorem csvField_head_safe (f : List Char) (y : Char)
    (h : (csvField f).head? = some y) : y ≠ '\r' ∧ y ≠ '\n' := by
  by_cases hq : csvNeedsQuote f
  · rw [csvField, if_pos hq] at h
    simp only [List.head?_cons, Option.some.injEq] at h
    subst h
    exact ⟨by decide, by decide⟩
  · rw [csvField, if_neg hq] at h
    cases f with
    | nil => cases h
    | cons c f' =>
      simp only [List.head?_cons, Option.some.injEq] at h
      subst h
      constructor <;> intro he <;> apply hq <;> simp [csvNeedsQuote, he]

/-- On input that is not an empty line, `csvParseRow` is the field scan. -/
theorem csvParseRow_default (cs : List Char)
    (h : ∀ y, cs.head? = some y → y ≠ '\r' ∧ y ≠ '\n') (hne : cs ≠ []) :
    csvParseRow cs = csvParseRowAux (cs.length + 1) cs := by
  rw [csvParseRow.eq_def]
  split
  next rest => exact absurd rfl (h '\r' rfl).1
  next rest => exact absurd rfl (h '\r' rfl).1
  next rest => exact absurd rfl (h '\n' rfl).2
  next => exact absurd rfl hne
  next => rfl

/-- Reading back a translated row through `csvParseRow` (two or more fields,
so the line is never empty). -/
theorem csvParseRow_enc (fields : List (List Char)) (rest : List Char)
    (h2 : 2 ≤ fields.length) :
    csvParseRow (joinComma (fields.map csvField) ++ '\n' :: rest) =
      (fields, rest) := by
  cases fields with
  | nil => simp at h2
  | cons f fs =>
    cases fs with
    | nil => simp at h2
    | cons f2 fs2 =>
      have hjc : joinComma ((f :: f2 :: fs2).map csvField) ++
          '\n' :: rest =
          csvField f ++ (',' ::
            (joinComma ((f2 :: fs2).map csvField) ++ '\n' :: rest)) := by
        rw [show joinComma ((f :: f2 :: fs2).map csvField) =
          csvField f ++ ',' :: joinComma ((f2 :: fs2).map csvField) from rfl]
        simp
      have hhead : ∀ y,
          (joinComma ((f :: f2 :: fs2).map csvField) ++
            '\n' :: rest).head? = some y → y ≠ '\r' ∧ y ≠ '\n' := by
        intro y hy
        rw [hjc] at hy
        cases hcf : csvField f with
        | nil =>
          rw [hcf] at hy
          simp only [List.nil_append, List.head?_cons, Option.some.injEq] at hy
          subst hy
          exact ⟨by decide, by decide⟩
        | cons z zs =>
          rw [hcf] at hy
          simp only [List.cons_append, List.head?_cons, Option.some.injEq] at hy
          subst hy
          exact csvField_head_safe f z (by rw [hcf]; rfl)
      have hne : joinComma ((f :: f2 :: fs2).map csvField) ++
          '\n' :: rest ≠ [] := by
        rw [hjc]
        intro hc
        rcases List.append_eq_nil.mp hc with ⟨-, h2⟩
        cases h2
      rw [csvParseRow_default _ hhead hne]
      apply csvParseRowAux_enc (f :: f2 :: fs2) _ rest (by simp)
      have hlb := joinComma_length_lb ((f :: f2 :: fs2).map csvField)
      simp only [List.length_map, List.length_cons, List.length_append] at hlb ⊢
      omega

/-- Every translated row is at least one character long. -/
theorem csvRowLF_length_ge (fields : List (List Char)) :
    1 ≤ (csvRowLF fields).length := by
  simp [csvRowLF]

/-- `csv.reader` over a translated file of encoded rows (each with at least
two fields) returns exactly those rows. -/
theorem csvParseRowsF_enc : ∀ (rows : List (List (List Char))) (fuel : Nat),
    (∀ r ∈ rows, 2 ≤ r.length) → rows.length < fuel →
    csvParseRowsF fuel ((rows.map csvRowLF).flatten) = rows := by
  intro rows
  induction rows with
  | nil =>
    intro fuel _ hf
    cases fuel with
    | zero => omega
    | succ m => simp [csvParseRowsF]
  | cons r rs ih =>
    intro fuel hlen hf
    cases fuel with
    | zero => omega
    | succ m =>
      have hflat : ((r :: rs).map csvRowLF).flatten =
          joinComma (r.map csvField) ++ '\n' :: (rs.map csvRowLF).flatten := by
        simp [csvRowLF]
      have hrow := csvParseRow_enc r ((rs.map csvRowLF).flatten)
        (hlen r (by simp))
      have hne : ((r :: rs).map csvRowLF).flatten ≠ [] := by
        rw [hflat]
        intro hc
        rcases List.append_eq_nil.mp hc with ⟨-, h2⟩
        cases h2
      rw [csvParseRowsF]
      rw [if_neg (by simpa using hne)]
      rw [hflat, hrow]
      simp only []
      rw [ih m (fun x hx => hlen x (by simp [hx])) (by simp at hf ⊢; omega)]

/-- Quote doubling introduces no carriage return. -/
theorem csvEscape_no_cr (f : List Char) (hf : '\r' ∉ f) :
    '\r' ∉ csvEscape f := by
  induction f with
  | nil => simp [csvEscape]
  | cons c f' ih =>
    have hc : c ≠ '\r' := fun he => hf (he ▸ List.mem_cons_self c f')
    have ih2 := ih (fun hm => hf (List.mem_cons_of_mem c hm))
    intro hm
    rw [csvEscape] at hm
    by_cases hq : c = '"'
    · rw [if_pos hq] at hm
      rcases List.mem_cons.mp hm with he | hm2
      · exact absurd he (by decide)
      · rcases List.mem_cons.mp hm2 with he | hm3
        · exact absurd he (by decide)
        · exact ih2 hm3
    · rw [if_neg hq] at hm
      rcases List.mem_cons.mp hm with he | hm2
      · exact hc he.symm
      · exact ih2 hm2

/-- Field encoding introduces no carriage return. -/
theorem csvField_no_cr (f : List Char) (hf : '\r' ∉ f) :
    '\r' ∉ csvField f := by
  unfold csvField
  by_cases hq : csvNeedsQuote f
  · rw [if_pos hq]
    intro hm
    rcases List.mem_cons.mp hm with he | hm2
    · cases he
    · rcases List.mem_append.mp hm2 with hm3 | hm3
      · exact csvEscape_no_cr f hf hm3
      · exact absurd (List.mem_singleton.mp hm3) (by decide)
  · rw [if_neg hq]
    exact hf

/-- Joining carriage-return-free fields stays carriage-return free. -/
theorem joinComma_no_cr : ∀ (l : List (List Char)),
    (∀ w ∈ l, '\r' ∉ w) → '\r' ∉ joinComma l := by
  intro l
  induction l with
  | nil => simp [joinComma]
  | cons w ws ih =>
    intro h
    cases ws with
    | nil =>
      rw [show joinComma [w] = w from rfl]
      exact h w (by simp)
    | cons w2 ws2 =>
      rw [show joinComma (w :: w2 :: ws2) =
        w ++ ',' :: joinComma (w2 :: ws2) from rfl]
      intro hm
      rcases List.mem_append.mp hm with hm2 | hm2
      · exact h w (by simp) hm2
      · rcases List.mem_cons.mp hm2 with he | hm3
        · cases he
        · exact ih (fun x hx => h x (by simp [hx])) hm3

/-- Universal-newline translation leaves a non-carriage-return head in place. -/
theorem universalNewlines_cons_ne (c : Char) (cs : List Char) (hc : c ≠ '\r') :
    universalNewlines (c :: cs) = c :: universalNewlines cs := by
  conv_lhs => rw [universalNewlines.eq_def]
  split
  next heq => cases heq
  next heq =>
    injection heq with h1 h2
    exact absurd h1 hc
  next heq =>
    exact absurd (List.head_eq_of_cons_eq heq) hc
  next heq =>
    injection heq with h1 h2
    rw [h1, h2]

/-- Universal-newline translation passes a carriage-return-free chunk
through unchanged. -/
theorem universalNewlines_crfree (f : List Char) (hf : '\r' ∉ f) :
    ∀ rest, universalNewlines (f ++ rest) = f ++ universalNewlines rest := by
  induction f with
  | nil => intro rest; rfl
  | cons c f' ih =>
    intro rest
    have hc : c ≠ '\r' := fun he => hf (he ▸ List.mem_cons_self c f')
    have ih2 := ih (fun hm => hf (List.mem_cons_of_mem c hm)) rest
    rw [List.cons_append, universalNewlines_cons_ne c _ hc, ih2]
    rfl

/-- Universal-newline translation of a saved row: the CRLF terminator becomes
an LF and carriage-return-free fields survive verbatim. -/
theorem universalNewlines_csvRow (fields : List (List Char))
    (hf : ∀ w ∈ fields, '\r' ∉ w) (rest : List Char) :
    universalNewlines (csvRow fields ++ rest) =
      csvRowLF fields ++ universalNewlines rest := by
  have hj : '\r' ∉ joinComma (fields.map csvField) := by
    apply joinComma_no_cr
    intro w hw
    obtain ⟨x, hx, hxw⟩ := List.mem_map.mp hw
    rw [← hxw]
    exact csvField_no_cr x (hf x hx)
  have h1 : csvRow fields ++ rest =
      joinComma (fields.map csvField) ++ ('\r' :: '\n' :: rest) := by
    simp [csvRow]
  rw [h1, universalNewlines_crfree _ hj]
  rw [show universalNewlines ('\r' :: '\n' :: rest) =
    '\n' :: universalNewlines rest from rfl]
  simp [csvRowLF]

/-- Universal-newline translation of a whole saved file of carriage-return
free rows. -/
theorem universalNewlines_rows : ∀ (rows : List (List (List Char))),
    (∀ r ∈ rows, ∀ w ∈ r, '\r' ∉ w) →
    universalNewlines ((rows.map csvRow).flatten) =
      (rows.map csvRowLF).flatten := by
  intro rows
  induction rows with
  | nil => intro _; rfl
  | cons r rs ih =>
    intro h
    rw [show ((r :: rs).map csvRow).flatten =
      csvRow r ++ (rs.map csvRow).flatten from by simp]
    rw [universalNewlines_csvRow r (h r (by simp))]
    rw [ih (fun x hx => h x (by simp [hx]))]
    simp [csvRowLF]

/-- Rebuilding a record from its saved field list is the identity. -/
theorem reconstructFields (l : List Faculty) :
    List.map ((fun r => ({ name := r.getD 0 [],
                           scholar_id := r.getD 1 [],
                           citations := r.getD 2 [],
                           h_index := r.getD 3 [],
                           as_of_date := r.getD 4 [] } : Faculty)) ∘
      facultyFields) l = l := by
  induction l with
  | nil => rfl
  | cons f fs ih =>
    rw [List.map_cons, ih]
    rfl

/-- Counterexample to C4: the source opens the CSV without `newline=''`, so
universal-newline translation corrupts a carriage return inside a quoted
field: a record whose name is `a\rb` is saved, then loaded back with name
`a\nb` — the round trip is not field-for-field equality for every string
content. -/
theorem save_then_load_cr_corrupts :
    load_faculty_data (save_faculty_data
        [⟨['a', '\r', 'b'], [], [], [], [] ⟩]) =
      some [⟨['a', '\n', 'b'], [], [], [], [] ⟩] ∧
    load_faculty_data (save_faculty_data
        [⟨['a', '\r', 'b'], [], [], [], [] ⟩]) ≠
      some [⟨['a', '\r', 'b'], [], [], [], [] ⟩] := by
  exact ⟨by decide, by decide⟩

/-- C4 (amended): saving a record list none of whose field values contains a
carriage return and loading the file back returns the same records, field
for field. -/
theorem save_then_load_roundtrip (data : List Faculty)
    (hcr : ∀ f ∈ data, ∀ w ∈ facultyFields f, '\r' ∉ w) :
    load_faculty_data (save_faculty_data data) = some data := by
  have hsave : save_faculty_data data =
      ((csvHeaderFields :: data.map facultyFields).map csvRow).flatten := by
    simp [save_faculty_data, List.map_map]
    rfl
  have hrowsfree : ∀ r ∈ csvHeaderFields :: data.map facultyFields,
      ∀ w ∈ r, '\r' ∉ w := by
    intro r hr
    rcases List.mem_cons.mp hr with h | h
    · rw [h]; decide
    · obtain ⟨f, hf, hfr⟩ := List.mem_map.mp h
      rw [← hfr]
      exact hcr f hf
  have hlens : ∀ r ∈ csvHeaderFields :: data.map facultyFields,
      2 ≤ r.length := by
    intro r hr
    rcases List.mem_cons.mp hr with h | h
    · rw [h]; decide
    · obtain ⟨f, -, hfr⟩ := List.mem_map.mp h
      rw [← hfr]
      simp [facultyFields]
  have hun : universalNewlines (save_faculty_data data) =
      ((csvHeaderFields :: data.map facultyFields).map csvRowLF).flatten := by
    rw [hsave]
    exact universalNewlines_rows _ hrowsfree
  have hfuel : (csvHeaderFields :: data.map facultyFields).length <
      (universalNewlines (save_faculty_data data)).length + 1 := by
    rw [hun]
    have hlb : ∀ (rows : List (List (List Char))),
        rows.length ≤ ((rows.map csvRowLF).flatten).length := by
      intro rows
      induction rows with
      | nil => simp
      | cons r rs ih =>
        have h1 := csvRowLF_length_ge r
        simp only [List.map_cons, List.flatten_cons, List.length_append,
          List.length_cons]
        omega
    have := hlb (csvHeaderFields :: data.map facultyFields)
    omega
  have hrows : csvParseRows (universalNewlines (save_faculty_data data)) =
      csvHeaderFields :: data.map facultyFields := by
    unfold csvParseRows
    rw [hun]
    apply csvParseRowsF_enc _ _ hlens
    rw [← hun]
    exact hfuel
  rw [load_faculty_data, hrows]
  simp only [if_pos rfl]
  have hkeep : (data.map facultyFields).filter (fun r => ¬ r.isEmpty) =
      data.map facultyFields := by
    apply List.filter_eq_self.mpr
    intro r hr
    obtain ⟨f, -, hfr⟩ := List.mem_map.mp hr
    rw [← hfr]
    simp [facultyFields]
  rw [hkeep]
  have hall : (data.map facultyFields).all (fun r => r.length = 5) = true := by
    apply List.all_eq_true.mpr
    intro r hr
    obtain ⟨f, -, hfr⟩ := List.mem_map.mp hr
    rw [← hfr]
    simp [facultyFields]
  rw [if_pos hall, List.map_map]
  exact congrArg some (reconstructFields data)

/-- Witness for the amended C4: a concrete carriage-return-free record list
round-trips through the CSV file. -/
theorem save_then_load_roundtrip_witness :
    load_faculty_data (save_faculty_data
        [⟨"Alice Jones".data, "AAA111".data, "10".data, "2".data,
           "2025-01-01".data⟩,
         ⟨"Bob, Jr. \"Smith\"".data, [], ['x', '\n', 'y'], [], [] ⟩]) =
      some
        [⟨"Alice Jones".data, "AAA111".data, "10".data, "2".data,
           "2025-01-01".data⟩,
         ⟨"Bob, Jr. \"Smith\"".data, [], ['x', '\n', 'y'], [], [] ⟩] :=
  save_then_load_roundtrip
    [⟨"Alice Jones".data, "AAA111".data, "10".data, "2".data,
       "2025-01-01".data⟩,
     ⟨"Bob, Jr. \"Smith\"".data, [], ['x', '\n', 'y'], [], [] ⟩]
    (by decide)

end FacultyScholar

namespace FacultyScholar

/-! ### Facts about the `find_longest_match` loops, toward claim C2 -/

/-- `j2len` lookup through a cons cell. -/
theorem lookupD_cons (j v p : Nat) (l : List (Nat × Nat)) :
    lookupD ((j, v) :: l) p = if j = p then v else lookupD l p := by
  by_cases hj : j = p
  · simp [lookupD, List.find?, hj]
  · have hb : (j == p) = false := by simpa using hj
    simp [lookupD, List.find?, hb, hj]

/-- Against an empty previous row every run has length 1. -/
theorem kOf_nil (j : Nat) : kOf [] j = 1 := by
  cases j <;> simp [kOf, lookupD, List.find?]

/-- The inner loop always prepends one row entry per in-window column; its
final row table looks up to the run length of this row. -/
theorem flmInner_acc (i bhi : Nat) (j2len : List (Nat × Nat)) :
    ∀ (js : List Nat) (acc : List (Nat × Nat)) (best : Nat × Nat × Nat)
      (p : Nat), (∀ j ∈ js, j < bhi) →
      lookupD (flmInner i 0 bhi j2len js acc best).1 p =
        if p ∈ js then kOf j2len p else lookupD acc p := by
  intro js
  induction js with
  | nil => intro acc best p h; simp [flmInner]
  | cons j js ih =>
    intro acc best p h
    have hj : j < bhi := h j (by simp)
    rw [flmInner]
    rw [if_neg (by omega), if_neg (by omega)]
    rw [ih _ _ p (fun x hx => h x (by simp [hx]))]
    by_cases hp : p ∈ js
    · simp [hp]
    · rw [if_neg hp]
      rw [lookupD_cons]
      by_cases hpj : p = j
      · subst hpj
        simp [kOf]
      · have : ¬ j = p := fun hc => hpj hc.symm
        simp [this, hpj, hp]

/-- If no in-window run beats the current best, the best is unchanged. -/
theorem flmInner_best_const (i bhi : Nat) (j2len : List (Nat × Nat)) :
    ∀ (js : List Nat) (acc : List (Nat × Nat)) (best : Nat × Nat × Nat),
      (∀ j ∈ js, j < bhi) → (∀ j ∈ js, kOf j2len j ≤ best.2.2) →
      (flmInner i 0 bhi j2len js acc best).2 = best := by
  intro js
  induction js with
  | nil => intro acc best _ _; simp [flmInner]
  | cons j js ih =>
    intro acc best h hk
    have hj : j < bhi := h j (by simp)
    have hkj : kOf j2len j ≤ best.2.2 := hk j (by simp)
    rw [flmInner]
    rw [if_neg (by omega), if_neg (by omega)]
    have hnot : ¬ best.2.2 < (if j = 0 then 0 else lookupD j2len (j - 1)) + 1 := by
      have : kOf j2len j = (if j = 0 then 0 else lookupD j2len (j - 1)) + 1 := rfl
      omega
    simp only [if_neg hnot]
    exact ih _ _ (fun x hx => h x (by simp [hx])) (fun x hx => hk x (by simp [hx]))

end FacultyScholar

namespace FacultyScholar

/-- Walking a strictly increasing column list whose runs are all dominated by
the current best except at the diagonal column `t`, where the run has length
`t + 1`: the best becomes the extended diagonal `(0, 0, t + 1)`. -/
theorem flmInner_best_diag (bhi : Nat) (j2len : List (Nat × Nat)) (t : Nat) :
    ∀ (js : List Nat) (acc : List (Nat × Nat)),
      js.Pairwise (· < ·) → (∀ j ∈ js, j < bhi) → t ∈ js →
      (∀ j ∈ js, j < t → kOf j2len j ≤ t) →
      kOf j2len t = t + 1 →
      (∀ j ∈ js, t < j → kOf j2len j ≤ t + 1) →
      (flmInner t 0 bhi j2len js acc (0, 0, t)).2 = (0, 0, t + 1) := by
  intro js
  induction js with
  | nil => intro acc _ _ hmem; cases hmem
  | cons j js ih =>
    intro acc hsort hlt hmem hsmall hdiag hbig
    have hj : j < bhi := hlt j (by simp)
    rw [flmInner]
    rw [if_neg (by omega), if_neg (by omega)]
    rcases Nat.lt_trichotomy j t with hjt | hjt | hjt
    · have hk : kOf j2len j ≤ t := hsmall j (by simp) hjt
      have hnot : ¬ (0, 0, t).2.2 < (if j = 0 then 0 else lookupD j2len (j - 1)) + 1 := by
        have : kOf j2len j = (if j = 0 then 0 else lookupD j2len (j - 1)) + 1 := rfl
        simp only []
        omega
      simp only [if_neg hnot]
      have hmem2 : t ∈ js := by
        rcases List.mem_cons.mp hmem with h | h
        · omega
        · exact h
      exact ih _ (List.Pairwise.sublist (List.sublist_cons_self j js) hsort)
        (fun x hx => hlt x (by simp [hx])) hmem2
        (fun x hx h2 => hsmall x (by simp [hx]) h2) hdiag
        (fun x hx h2 => hbig x (by simp [hx]) h2)
    · subst hjt
      have hkj : (if j = 0 then 0 else lookupD j2len (j - 1)) + 1 = j + 1 := hdiag
      simp only [hkj, Nat.sub_self]
      rw [if_pos (Nat.lt_succ_self j)]
      apply flmInner_best_const
      · exact fun x hx => hlt x (by simp [hx])
      · intro x hx
        have hgt : j < x := (List.pairwise_cons.mp hsort).1 x hx
        exact hbig x (by simp [hx]) hgt
    · exfalso
      rcases List.mem_cons.mp hmem with h | h
      · omega
      · have := (List.pairwise_cons.mp hsort).1 t h
        omega

/-- Occurrence-table membership. -/
theorem b2j_mem {b : List Char} {c : Char} {j : Nat} (h : j ∈ b2j b c) :
    j < b.length ∧ b.get? j = some c := by
  unfold b2j at h
  simp only [List.mem_filter, List.mem_range, decide_eq_true_eq] at h
  exact h

/-- A matching position is in the occurrence table. -/
theorem b2j_self_mem {b : List Char} {c : Char} {j : Nat}
    (hj : j < b.length) (hc : b.get? j = some c) : j ∈ b2j b c := by
  unfold b2j
  simp only [List.mem_filter, List.mem_range, decide_eq_true_eq]
  exact ⟨hj, hc⟩

/-- The occurrence table is strictly increasing. -/
theorem b2j_sorted (b : List Char) (c : Char) :
    (b2j b c).Pairwise (· < ·) :=
  (List.pairwise_lt_range b.length).sublist (List.filter_sublist _)

end FacultyScholar

namespace FacultyScholar

/-- Outer-loop invariant on a self-comparison: after `t` rows the best is the
diagonal prefix `(0, 0, t)`, the previous row's runs are bounded by
`min t (p + 1)`, and the entry below the diagonal equals `t`.  Running the
remaining rows yields the full diagonal. -/
theorem flmOuter_diag (a : List Char) :
    ∀ (n t : Nat) (j2len : List (Nat × Nat)),
      t + n = a.length →
      (∀ p, lookupD j2len p ≤ min t (p + 1)) →
      (∀ p, p + 1 = t → lookupD j2len p = t) →
      flmOuter a a 0 a.length (List.range' t n) j2len (0, 0, t) =
        (0, 0, a.length) := by
  intro n
  induction n with
  | zero =>
    intro t j2len ht _ _
    rw [show List.range' t 0 = [] from rfl]
    rw [flmOuter]
    rw [show t = a.length from by omega]
  | succ n ih =>
    intro t j2len ht hbound hdiag
    have htl : t < a.length := by omega
    obtain ⟨c, hc⟩ : ∃ c, a.get? t = some c :=
      ⟨a.get ⟨t, htl⟩, List.get?_eq_get htl⟩
    rw [show List.range' t (n + 1) = t :: List.range' (t + 1) n from rfl]
    rw [flmOuter]
    rw [hc]
    simp only []
    have hjlt : ∀ j ∈ b2j a c, j < a.length := fun j hj => (b2j_mem hj).1
    have hmem : t ∈ b2j a c := b2j_self_mem htl hc
    have hkt : kOf j2len t = t + 1 := by
      unfold kOf
      by_cases h0 : t = 0
      · simp [h0]
      · rw [if_neg h0]
        rw [hdiag (t - 1) (by omega)]
    have hksmall : ∀ j ∈ b2j a c, j < t → kOf j2len j ≤ t := by
      intro j _ hjt
      unfold kOf
      by_cases h0 : j = 0
      · simp [h0]; omega
      · rw [if_neg h0]
        have := hbound (j - 1)
        omega
    have hkbig : ∀ j ∈ b2j a c, t < j → kOf j2len j ≤ t + 1 := by
      intro j _ hjt
      unfold kOf
      rw [if_neg (by omega)]
      have := hbound (j - 1)
      omega
    have hbest := flmInner_best_diag a.length j2len t (b2j a c) []
      (b2j_sorted a c) hjlt hmem hksmall hkt hkbig
    have hacc := fun p => flmInner_acc t a.length j2len (b2j a c) [] (0, 0, t)
      p hjlt
    rw [hbest]
    apply ih (t + 1) _ (by omega)
    · intro p
      rw [hacc p]
      by_cases hp : p ∈ b2j a c
      · rw [if_pos hp]
        unfold kOf
        by_cases h0 : p = 0
        · simp [h0]
        · rw [if_neg h0]
          have := hbound (p - 1)
          omega
      · rw [if_neg hp]
        simp [lookupD, List.find?]
    · intro p hp
      have hpt : p = t := by omega
      subst hpt
      rw [hacc p]
      rw [if_pos hmem, hkt]

end FacultyScholar

namespace FacultyScholar

/-- A left extension with zero `bestj` never fires. -/
theorem extLeftF_bestj_zero (a b : List Char) (alo blo : Nat) :
    ∀ (fuel besti bestsize : Nat),
      extLeftF a b alo blo fuel besti 0 bestsize = (besti, 0, bestsize) := by
  intro fuel besti bestsize
  cases fuel with
  | zero => rfl
  | succ m =>
    rw [extLeftF]
    rw [if_neg (by omega)]

/-- A right extension whose first test fails returns the size unchanged. -/
theorem extRightSizeF_stop (a b : List Char) (ahi bhi besti bestj : Nat)
    (bestsize : Nat)
    (h : ¬ (besti + bestsize < ahi ∧ bestj + bestsize < bhi ∧
      (a.get? (besti + bestsize)).isSome ∧
      a.get? (besti + bestsize) = b.get? (bestj + bestsize))) :
    ∀ fuel, extRightSizeF a b ahi bhi besti bestj fuel bestsize = bestsize := by
  intro fuel
  cases fuel with
  | zero => rfl
  | succ m =>
    rw [extRightSizeF]
    rw [if_neg h]

/-- On a self-comparison `find_longest_match` returns the whole diagonal. -/
theorem findLongestMatch_self (a : List Char) :
    findLongestMatch a a 0 a.length 0 a.length = (0, 0, a.length) := by
  unfold findLongestMatch
  have h := flmOuter_diag a a.length 0 [] (by omega)
    (by intro p; simp [lookupD, List.find?])
    (by intro p hp; omega)
  simp only [Nat.sub_zero]
  rw [h]
  simp only []
  rw [show extLeftF a a 0 0 0 0 0 a.length = (0, 0, a.length) from rfl]
  simp only []
  rw [extRightSizeF_stop a a a.length a.length 0 0 a.length (by omega)]

/-- The matching blocks of a string against itself cover it entirely. -/
theorem smMatches_self (a : List Char) : smMatches a a = a.length := by
  unfold smMatches
  rw [show a.length + a.length + 1 = (a.length + a.length) + 1 from rfl]
  rw [matchesSumF]
  rw [findLongestMatch_self a]
  simp only []
  by_cases h0 : a.length = 0
  · simp [h0]
  · rw [if_neg h0]
    rw [if_neg (by omega), if_neg (by omega)]
    omega

/-- The SequenceMatcher ratio of equal strings passes the 0.8 bar. -/
theorem ratioGe08_self (a : List Char) : ratioGe08 a a = true := by
  unfold ratioGe08
  rw [smMatches_self]
  simp only [decide_eq_true_eq]
  omega

end FacultyScholar

namespace FacultyScholar

/-- Against an empty previous row, the inner loop records the first in-window
column as a length-1 best (starting from zero) and changes nothing after. -/
theorem flmInner_k1_cons (i bhi j : Nat) (js2 : List Nat)
    (acc : List (Nat × Nat)) (hjs : ∀ x ∈ j :: js2, x < bhi) :
    (flmInner i 0 bhi [] (j :: js2) acc (0, 0, 0)).2 = (i, j, 1) := by
  have hj : j < bhi := hjs j (by simp)
  rw [flmInner]
  rw [if_neg (by omega), if_neg (by omega)]
  have hk1 : (if j = 0 then 0 else lookupD [] (j - 1)) + 1 = 1 := by
    cases j <;> simp [lookupD, List.find?]
  simp only [hk1, Nat.add_sub_cancel]
  rw [if_pos (by decide)]
  exact flmInner_best_const i bhi [] js2 _ (i, j, 1)
    (fun x hx => hjs x (by simp [hx]))
    (fun x hx => by rw [kOf_nil])

/-- `find_longest_match` of a single character with no occurrence in `b`
finds nothing. -/
theorem findLongestMatch_single_left_nil (c : Char) (b : List Char)
    (hb : b2j b c = []) :
    findLongestMatch [c] b 0 1 0 b.length = (0, 0, 0) := by
  unfold findLongestMatch
  rw [show List.range' 0 (1 - 0) = [0] from rfl]
  rw [flmOuter]
  simp only [List.get?]
  rw [hb]
  rw [show flmInner 0 0 b.length [] [] [] (0, 0, 0) =
    ([], (0, 0, 0)) from rfl]
  rw [flmOuter]
  simp only []
  rw [show extLeftF [c] b 0 0 0 0 0 0 = (0, 0, 0) from rfl]
  rw [extRightSizeF_stop [c] b 1 b.length 0 0 0 (by
    rintro ⟨-, h2, -, h4⟩
    have h0 : (0 : Nat) ∈ b2j b c := b2j_self_mem (by omega) (by
      simpa using h4.symm)
    rw [hb] at h0
    cases h0)]

/-- `find_longest_match` of a single character occurring first at `j`. -/
theorem findLongestMatch_single_left_cons (c : Char) (b : List Char)
    (j : Nat) (js2 : List Nat) (hb : b2j b c = j :: js2) :
    findLongestMatch [c] b 0 1 0 b.length = (0, j, 1) := by
  unfold findLongestMatch
  rw [show List.range' 0 (1 - 0) = [0] from rfl]
  rw [flmOuter]
  simp only [List.get?]
  rw [hb]
  rw [flmOuter]
  have hjs : ∀ x ∈ j :: js2, x < b.length := by
    intro x hx
    exact (b2j_mem (hb ▸ hx)).1
  rw [flmInner_k1_cons 0 b.length j js2 [] hjs]
  simp only []
  rw [show extLeftF [c] b 0 0 0 0 j 1 = (0, j, 1) from rfl]
  rw [extRightSizeF_stop [c] b 1 b.length 0 j 1 (by omega)]

/-- A single character matches at most one position of `b`, and a match pins
an occurrence of the character. -/
theorem smMatches_single_left (c : Char) (b : List Char) :
    smMatches [c] b ≤ 1 ∧
      (smMatches [c] b = 1 → ∃ j, j < b.length ∧ b.get? j = some c) := by
  unfold smMatches
  rw [show (List.length [c] + b.length + 1) = (b.length + 1) + 1 from by
    simp; omega]
  rw [matchesSumF]
  rw [show List.length [c] = 1 from rfl]
  cases hb : b2j b c with
  | nil =>
    rw [findLongestMatch_single_left_nil c b hb]
    simp
  | cons j js2 =>
    have hj := b2j_mem (hb ▸ List.mem_cons_self j js2)
    rw [findLongestMatch_single_left_cons c b j js2 hb]
    simp only []
    rw [if_neg (by omega)]
    rw [if_neg (by omega), if_neg (by omega)]
    constructor
    · omega
    · intro _
      exact ⟨j, hj.1, hj.2⟩

/-- A 0.8 similarity of a single character against `b` forces `b` to be that
same single character. -/
theorem ratioGe08_single_left (c : Char) (b : List Char)
    (h : ratioGe08 [c] b = true) : b = [c] := by
  unfold ratioGe08 at h
  simp only [decide_eq_true_eq, List.length_cons, List.length_nil] at h
  obtain ⟨hle, hone⟩ := smMatches_single_left c b
  have hm : smMatches [c] b = 1 := by omega
  obtain ⟨j, hjl, hjc⟩ := hone hm
  have hlb : b.length = 1 := by omega
  obtain ⟨x, hx⟩ := List.length_eq_one.mp hlb
  subst hx
  have hj0 : j = 0 := by simpa using hjl
  subst hj0
  simp only [List.get?] at hjc
  cases hjc
  rfl

end FacultyScholar

namespace FacultyScholar

/-- Occurrence table of a one-character `b`: column 0 when the characters
agree, nothing otherwise. -/
theorem b2j_single (c d : Char) :
    b2j [c] d = if c = d then [0] else [] := by
  unfold b2j
  rw [show List.range (List.length [c]) = [0] from rfl]
  by_cases hd : c = d
  · subst hd
    simp [List.filter]
  · simp [List.filter, hd]

/-- Outer loop against a one-character `b`: the best is nothing (and the
character never occurred) or a length-1 block at its first occurrence. -/
theorem flmOuter_single_right (a : List Char) (c : Char) :
    ∀ (n t : Nat) (j2len : List (Nat × Nat)) (best : Nat × Nat × Nat),
      t + n = a.length →
      ((best = (0, 0, 0) ∧ ∀ i, i < t → a.get? i ≠ some c) ∨
        (∃ i0, best = (i0, 0, 1) ∧ a.get? i0 = some c)) →
      ((flmOuter a [c] 0 1 (List.range' t n) j2len best = (0, 0, 0) ∧
          ∀ i, i < a.length → a.get? i ≠ some c) ∨
        (∃ i0, flmOuter a [c] 0 1 (List.range' t n) j2len best = (i0, 0, 1) ∧
          a.get? i0 = some c)) := by
  intro n
  induction n with
  | zero =>
    intro t j2len best ht hinv
    rw [show List.range' t 0 = [] from rfl, flmOuter]
    rcases hinv with ⟨h1, h2⟩ | ⟨i0, h1, h2⟩
    · exact Or.inl ⟨h1, fun i hi => h2 i (by omega)⟩
    · exact Or.inr ⟨i0, h1, h2⟩
  | succ n ih =>
    intro t j2len best ht hinv
    have htl : t < a.length := by omega
    obtain ⟨d, hd⟩ : ∃ d, a.get? t = some d :=
      ⟨a.get ⟨t, htl⟩, List.get?_eq_get htl⟩
    rw [show List.range' t (n + 1) = t :: List.range' (t + 1) n from rfl]
    rw [flmOuter]
    rw [hd]
    simp only []
    by_cases hdc : c = d
    · subst hdc
      rw [b2j_single c c, if_pos rfl]
      rcases hinv with ⟨h1, h2⟩ | ⟨i0, h1, h2⟩
      · rw [h1]
        rw [show (flmInner t 0 1 j2len [0] []
            ((0 : Nat), (0 : Nat), (0 : Nat))).2 = (t, 0, 1) from rfl]
        exact ih (t + 1) _ _ (by omega) (Or.inr ⟨t, rfl, hd⟩)
      · rw [h1]
        rw [show (flmInner t 0 1 j2len [0] [] (i0, 0, 1)).2 =
          (i0, 0, 1) from rfl]
        exact ih (t + 1) _ _ (by omega) (Or.inr ⟨i0, rfl, h2⟩)
    · rw [b2j_single c d, if_neg hdc]
      rw [show (flmInner t 0 1 j2len [] [] best).2 = best from rfl]
      rcases hinv with ⟨h1, h2⟩ | ⟨i0, h1, h2⟩
      · refine ih (t + 1) _ _ (by omega) (Or.inl ⟨h1, ?_⟩)
        intro i hi
        by_cases hit : i = t
        · subst hit
          rw [hd]
          intro hcon
          exact hdc (by injection hcon with h; exact h.symm)
        · exact h2 i (by omega)
      · exact ih (t + 1) _ _ (by omega) (Or.inr ⟨i0, h1, h2⟩)

/-- A string matches a single character at most once, and a match pins an
occurrence. -/
theorem smMatches_single_right (a : List Char) (c : Char) :
    smMatches a [c] ≤ 1 ∧
      (smMatches a [c] = 1 → ∃ i, i < a.length ∧ a.get? i = some c) := by
  unfold smMatches
  rw [show (a.length + List.length [c] + 1) = (a.length + 1) + 1 from by
    simp]
  rw [matchesSumF]
  unfold findLongestMatch
  rw [show List.length [c] = 1 from rfl]
  simp only [Nat.sub_zero]
  rcases flmOuter_single_right a c a.length 0 [] (0, 0, 0) (by omega)
      (Or.inl ⟨rfl, by omega⟩) with ⟨hout, hnone⟩ | ⟨i0, hout, hocc⟩
  · rw [hout]
    simp only []
    rw [show extLeftF a [c] 0 0 0 0 0 0 = (0, 0, 0) from rfl]
    rw [extRightSizeF_stop a [c] a.length 1 0 0 0 (by
      rintro ⟨ha, -, -, h4⟩
      exact hnone 0 (by omega) (by simpa using h4))]
    simp
  · rw [hout]
    simp only []
    rw [extLeftF_bestj_zero a [c] 0 0 i0 i0 1]
    rw [extRightSizeF_stop a [c] a.length 1 i0 0 1 (by omega)]
    have hi0 : i0 < a.length := by
      by_contra hcon
      rw [List.get?_eq_none.mpr (by omega)] at hocc
      cases hocc
    simp only []
    rw [if_neg (by omega)]
    rw [if_neg (by omega), if_neg (by omega)]
    exact ⟨by omega, fun _ => ⟨i0, hi0, hocc⟩⟩

/-- A 0.8 similarity against a single character forces the other string to be
that same character. -/
theorem ratioGe08_single_right (a : List Char) (c : Char)
    (h : ratioGe08 a [c] = true) : a = [c] := by
  unfold ratioGe08 at h
  simp only [decide_eq_true_eq, List.length_cons, List.length_nil] at h
  obtain ⟨hle, hone⟩ := smMatches_single_right a c
  have hm : smMatches a [c] = 1 := by omega
  obtain ⟨i0, hil, hic⟩ := hone hm
  have hla : a.length = 1 := by omega
  obtain ⟨x, hx⟩ := List.length_eq_one.mp hla
  subst hx
  have hi00 : i0 = 0 := by simpa using hil
  subst hi00
  simp only [List.get?] at hic
  cases hic
  rfl

end FacultyScholar

namespace FacultyScholar

/-- `str.split()` never produces an empty token. -/
theorem pySplitWSAux_ne_nil :
    ∀ (s : List Char) (acc : List Char) (w : List Char),
      w ∈ pySplitWSAux s acc → w ≠ [] := by
  intro s
  induction s with
  | nil =>
    intro acc w hw
    by_cases ha : acc.isEmpty
    · simp [pySplitWSAux, ha] at hw
    · rw [pySplitWSAux, if_neg ha] at hw
      rcases List.mem_singleton.mp hw with rfl
      intro hc
      rw [List.reverse_eq_nil_iff] at hc
      rw [hc] at ha
      exact ha rfl
  | cons c cs ih =>
    intro acc w hw
    rw [pySplitWSAux] at hw
    by_cases hc : isPySpace c
    · rw [if_pos hc] at hw
      by_cases ha : acc.isEmpty
      · rw [if_pos ha] at hw
        exact ih [] w hw
      · rw [if_neg ha] at hw
        rcases List.mem_cons.mp hw with rfl | hw2
        · intro hcon
          rw [List.reverse_eq_nil_iff] at hcon
          rw [hcon] at ha
          exact ha rfl
        · exact ih [] w hw2
    · rw [if_neg hc] at hw
      exact ih (c :: acc) w hw

/-- Tokens of `str.split()` are non-empty. -/
theorem pySplitWS_ne_nil (s : List Char) (w : List Char)
    (hw : w ∈ pySplitWS s) : w ≠ [] :=
  pySplitWSAux_ne_nil s [] w hw

/-- The defaulted head of a non-empty list is a member. -/
theorem head_getD_mem (pa : List (List Char)) (h : 1 ≤ pa.length) :
    pa.head?.getD [] ∈ pa := by
  cases pa with
  | nil => simp at h
  | cons x xs => simp

/-- The Boolean middle-token loop agrees with its propositional reading. -/
theorem middleOverlap_iff (sm rm : List (List Char)) :
    middleOverlap sm rm = true ↔ MiddleTokensOverlap sm rm := by
  unfold middleOverlap MiddleTokensOverlap
  simp only [List.any_eq_true, Bool.or_eq_true, Bool.and_eq_true, beq_iff_eq]
  constructor
  · rintro ⟨x, hx, y, hy, h⟩
    exact ⟨x, hx, y, hy, by tauto⟩
  · rintro ⟨x, hx, y, hy, h⟩
    exact ⟨x, hx, y, hy, by tauto⟩

/-- Number of middle tokens. -/
theorem middle_length (pa : List (List Char)) :
    ((pa.drop 1).dropLast).length = pa.length - 2 := by
  rw [List.length_dropLast, List.length_drop]
  omega

/-- The middle-token portion of `names_match` equals the claim's conditional
reading once both names have at least two tokens. -/
theorem middle_part_eq (pa pb : List (List Char)) (hl1 : 2 ≤ pa.length)
    (hl2 : 2 ≤ pb.length) :
    ((if 2 < pa.length ∨ 2 < pb.length then
        (if (pa.drop 1).dropLast ≠ [] ∧ (pb.drop 1).dropLast ≠ [] then
          middleOverlap ((pa.drop 1).dropLast) ((pb.drop 1).dropLast)
        else true)
      else true) = true) ↔
      ((pa.drop 1).dropLast ≠ [] → (pb.drop 1).dropLast ≠ [] →
        MiddleTokensOverlap ((pa.drop 1).dropLast) ((pb.drop 1).dropLast)) := by
  by_cases h5 : 2 < pa.length ∨ 2 < pb.length
  · rw [if_pos h5]
    by_cases h6 : (pa.drop 1).dropLast ≠ [] ∧ (pb.drop 1).dropLast ≠ []
    · rw [if_pos h6]
      rw [middleOverlap_iff]
      exact ⟨fun hm _ _ => hm, fun hr => hr h6.1 h6.2⟩
    · rw [if_neg h6]
      constructor
      · intro _ hsm hrm
        exact absurd ⟨hsm, hrm⟩ h6
      · intro _
        rfl
  · rw [if_neg h5]
    have hpa2 : pa.length = 2 := by omega
    have hsm : (pa.drop 1).dropLast = [] := by
      rw [← List.length_eq_zero, middle_length, hpa2]
    constructor
    · intro _ hne
      exact absurd hsm hne
    · intro _
      rfl

end FacultyScholar

namespace FacultyScholar

set_option maxHeartbeats 2000000 in
/-- C2: `names_match` returns `True` exactly as claim C2 reads it: the
normalized forms are equal; or both normalized names have at least two
tokens, the last tokens are identical, the first tokens are equivalent
(equal, or a one-character initial agreeing with the other's leading
character, or SequenceMatcher similarity at least 0.8), and, whenever both
names carry middle tokens, at least one middle token of one name equals or is
an initial of a middle token of the other. -/
theorem names_match_iff_spec (a b : List Char) (t : ℚ) :
    names_match a b t = true ↔ NamesMatchSpec a b := by
  unfold names_match NamesMatchSpec FirstTokenEquiv
  set na := normalize_name a with hna
  set nb := normalize_name b with hnb
  set pa := pySplitWS na with hpa
  set pb := pySplitWS nb with hpb
  set sf := pa.head?.getD [] with hsf
  set rf := pb.head?.getD [] with hrf
  by_cases h1 : na = nb
  · simp [h1]
  · rw [if_neg h1]
    simp only []
    by_cases h2 : pa.length < 2 ∨ pb.length < 2
    · rw [if_pos h2]
      constructor
      · intro hF; cases hF
      · rintro (hEq | ⟨hl1, hl2, -⟩)
        · exact absurd hEq h1
        · exfalso
          rcases h2 with h2 | h2 <;> omega
    · rw [if_neg h2]
      rw [not_or] at h2
      have hl1 : 2 ≤ pa.length := by omega
      have hl2 : 2 ≤ pb.length := by omega
      by_cases h3 : pa.getLast? ≠ pb.getLast?
      · rw [if_pos h3]
        constructor
        · intro hF; cases hF
        · rintro (hEq | ⟨-, -, hlast, -⟩)
          · exact absurd hEq h1
          · exact absurd hlast h3
      · rw [if_neg h3]
        have hlast : pa.getLast? = pb.getLast? := not_not.mp h3
        have hsfne : sf ≠ [] :=
          pySplitWS_ne_nil na _ (head_getD_mem pa (by omega))
        have hrfne : rf ≠ [] :=
          pySplitWS_ne_nil nb _ (head_getD_mem pb (by omega))
        by_cases h4 : sf.length = 1 ∨ rf.length = 1
        · rw [if_pos h4]
          by_cases h5 : sf.head? = rf.head?
          · rw [show (sf.head? == rf.head?) = true from by simp [h5]]
            rw [if_neg (by simp)]
            rw [middle_part_eq pa pb hl1 hl2]
            constructor
            · intro hmid
              refine Or.inr ⟨hl1, hl2, hlast, ?_, hmid⟩
              rcases h4 with h4 | h4
              · exact Or.inr (Or.inl ⟨h4, h5⟩)
              · exact Or.inr (Or.inr (Or.inl ⟨h4, h5.symm⟩))
            · rintro (hEq | ⟨-, -, -, -, hmid⟩)
              · exact absurd hEq h1
              · exact hmid
          · rw [show (sf.head? == rf.head?) = false from by simp [h5]]
            rw [if_pos rfl]
            constructor
            · intro hF; cases hF
            · rintro (hEq | ⟨-, -, -, hfte, -⟩)
              · exact absurd hEq h1
              · exfalso
                rcases hfte with he | ⟨-, hh⟩ | ⟨-, hh⟩ | hr
                · exact h5 (by rw [he])
                · exact h5 hh
                · exact h5 hh.symm
                · rcases h4 with hs1 | hr1
                  · obtain ⟨x, hx⟩ := List.length_eq_one.mp hs1
                    rw [hx] at hr
                    have hrfx := ratioGe08_single_left x rf hr
                    exact h5 (by rw [hx, hrfx])
                  · obtain ⟨x, hx⟩ := List.length_eq_one.mp hr1
                    rw [hx] at hr
                    have hsfx := ratioGe08_single_right sf x hr
                    exact h5 (by rw [hx, hsfx])
        · rw [if_neg h4]
          by_cases h6 : ratioGe08 sf rf = true
          · rw [h6]
            rw [if_neg (by simp)]
            rw [middle_part_eq pa pb hl1 hl2]
            constructor
            · intro hmid
              exact Or.inr ⟨hl1, hl2, hlast, Or.inr (Or.inr (Or.inr rfl)), hmid⟩
            · rintro (hEq | ⟨-, -, -, -, hmid⟩)
              · exact absurd hEq h1
              · exact hmid
          · rw [show ratioGe08 sf rf = false from by
              rcases hb : ratioGe08 sf rf with - | -
              · rfl
              · exact absurd hb h6]
            rw [if_pos rfl]
            constructor
            · intro hF; cases hF
            · rintro (hEq | ⟨-, -, -, hfte, -⟩)
              · exact absurd hEq h1
              · exfalso
                rcases hfte with he | ⟨hlen1, -⟩ | ⟨hlen1, -⟩ | hr
                · rw [he] at h6
                  exact h6 (ratioGe08_self rf)
                · exact (not_or.mp h4).1 hlen1
                · exact (not_or.mp h4).2 hlen1
                · cases hr

end FacultyScholar
